import Mathlib

/-!
Verification of the ternary NTRU KEM core of the `streams` repository.

The repository files under verification are `src/ntru.rs`, `src/pb3/cmd/mask.rs`,
`src/iota-streams-app/src/message/wrapped.rs` and
`src/iota-streams-protobuf3/src/command/wrap/commit.rs`.  The supporting modules
(`trits`, `poly`, `spongos`, `prng`) are not part of the staged sources, so their
operations are modelled from the specification (each such definition carries a
doc comment starting with "Modelled from the spec:").  Machine integers do not
occur: all arithmetic is balanced-ternary over `Int` and modular over `ZMod q`.
-/

set_option maxRecDepth 4000

/-- Modelled from the spec: balanced residue of an integer mod 3, the value in
{-1, 0, +1} congruent to `x` (the "mods 3" operation of §4.B). -/
def mods3 (x : Int) : Int :=
  if x % 3 = 2 then x % 3 - 3 else x % 3

/-- Modelled from the spec: a trit string is a list of balanced ternary digits,
each fixed by `mods3`. -/
def Ternary (ts : List Int) : Prop :=
  ∀ t ∈ ts, mods3 t = t

instance (ts : List Int) : Decidable (Ternary ts) := by
  unfold Ternary; infer_instance

theorem mods3_emod (x : Int) : mods3 x % 3 = x % 3 := by
  unfold mods3; split <;> omega

theorem mods3_congr {x y : Int} (h : x % 3 = y % 3) : mods3 x = mods3 y := by
  unfold mods3; rw [h]

theorem mods3_bounds (x : Int) : -1 ≤ mods3 x ∧ mods3 x ≤ 1 := by
  unfold mods3; constructor <;> split <;> omega

theorem mods3_dvd_sub (x : Int) : (3 : Int) ∣ (x - mods3 x) := by
  unfold mods3; split <;> omega

/-- Decrypting an encrypted trit with the same keystream trit recovers its
balanced residue. -/
theorem mods3_encr_decr (t k : Int) : mods3 (mods3 (t + k) - k) = mods3 t := by
  apply mods3_congr
  have h := mods3_emod (t + k)
  omega

/-- Modelled from the spec: write an integer as `k` balanced ternary digits,
little-endian (the fixed-width trit encoding of §4.B / `put3` of §4.A). -/
def encodeBal : Nat → Int → List Int
  | 0, _ => []
  | k + 1, v => mods3 v :: encodeBal k ((v - mods3 v) / 3)

/-- Modelled from the spec: read a little-endian balanced ternary digit string
as an integer (`get3` of §4.A and the coefficient decoding of §4.B). -/
def decodeBal (ts : List Int) : Int :=
  ts.foldr (fun d acc => d + 3 * acc) 0

theorem encodeBal_length (k : Nat) (v : Int) : (encodeBal k v).length = k := by
  induction k generalizing v with
  | zero => rfl
  | succ k ih => simp [encodeBal, ih]

theorem decodeBal_encodeBal (k : Nat) (v : Int)
    (h : 2 * v.natAbs ≤ 3 ^ k - 1) : decodeBal (encodeBal k v) = v := by
  induction k generalizing v with
  | zero =>
    have : v = 0 := by simpa using h
    simp [this, encodeBal, decodeBal]
  | succ k ih =>
    have h3 := mods3_dvd_sub v
    have hb := mods3_bounds v
    have hmul : 3 * ((v - mods3 v) / 3) = v - mods3 v := Int.mul_ediv_cancel' h3
    have hpow : (3 : Nat) ^ (k + 1) = 3 * 3 ^ k := by ring
    have hpos : 1 ≤ (3 : Nat) ^ k := Nat.one_le_pow _ _ (by norm_num)
    have hodd : (3 : Nat) ^ k % 2 = 1 := by
      rw [Nat.pow_mod]; simp
    have hbnd : 2 * ((v - mods3 v) / 3).natAbs ≤ 3 ^ k - 1 := by
      rw [hpow] at h; omega
    have hrec := ih _ hbnd
    simp only [encodeBal, decodeBal, List.foldr_cons]
    have : decodeBal (encodeBal k ((v - mods3 v) / 3)) = (v - mods3 v) / 3 := hrec
    unfold decodeBal at this
    rw [this]
    omega

/-- Modelled from the spec: the balanced representative in `(-q/2, q/2]` of a
residue mod `q` (the "balanced representatives" convention of §9). -/
def balRep (q : Nat) (x : ZMod q) : Int :=
  if x.val ≤ q / 2 then (x.val : Int) else (x.val : Int) - q

theorem balRep_natAbs_le (q : Nat) (hq : 0 < q) (x : ZMod q) :
    (balRep q x).natAbs ≤ q / 2 := by
  haveI : NeZero q := ⟨by omega⟩
  have hlt := ZMod.val_lt x
  unfold balRep; split <;> omega

theorem balRep_intCast (q : Nat) (hq : 0 < q) (x : ZMod q) :
    ((balRep q x : Int) : ZMod q) = x := by
  haveI : NeZero q := ⟨by omega⟩
  unfold balRep
  split
  · rw [Int.cast_natCast]
    exact ZMod.natCast_rightInverse x
  · push_cast
    rw [ZMod.natCast_self]
    rw [ZMod.natCast_rightInverse x]
    ring

/-- Modelled from the spec: the sponge configuration — the PRP's rate and
capacity and the pluggable permutation itself (§4.C, §9 "Polymorphic sponge
permutation"). -/
structure SpongeCfg where
  rate : Nat
  cap : Nat
  prp : List Int → List Int

/-- Modelled from the spec: a duplex sponge state.  `pre` holds the trits of
the current block already processed (most recent first), `post` the rest of
the outer rate block, `inner` the capacity part; the cursor position is
`pre.length`, so a committed state is one with `pre = []`. -/
structure Spongos where
  pre : List Int
  post : List Int
  inner : List Int
deriving DecidableEq

/-- Modelled from the spec: `init` zeroes the state and cursor (§4.C). -/
def Spongos.start (c : SpongeCfg) : Spongos :=
  ⟨[], List.replicate c.rate 0, List.replicate c.cap 0⟩

/-- Modelled from the spec: apply the PRP to the whole state and reset the
cursor to the block start. -/
def Spongos.permuteF (c : SpongeCfg) (sp : Spongos) : Spongos :=
  let full := c.prp (sp.pre.reverse ++ sp.post ++ sp.inner)
  ⟨[], full.take c.rate, full.drop c.rate⟩

/-- Modelled from the spec: `commit` forces a permutation boundary and resets
the cursor to the block start; at a block start it is a no-op (§4.C). -/
def Spongos.commit (c : SpongeCfg) (sp : Spongos) : Spongos :=
  if sp.pre.isEmpty then sp else Spongos.permuteF c sp

/-- Modelled from the spec: process one trit through the outer rate.  The
combiner `f` receives the outer-state trit under the cursor and the input trit
and returns the replacement state trit and the output trit; the cursor
advances, applying the PRP when the rate block fills. -/
def Spongos.step (c : SpongeCfg) (f : Int → Int → Int × Int) (sp : Spongos)
    (t : Int) : Spongos × Int :=
  let sp1 := if sp.post.isEmpty then Spongos.permuteF c sp else sp
  match sp1.post with
  | k :: rest =>
    let o := f k t
    (⟨o.1 :: sp1.pre, rest, sp1.inner⟩, o.2)
  | [] => (sp1, t)

/-- Modelled from the spec: run a per-trit combiner over a trit string,
collecting the outputs. -/
def Spongos.run (c : SpongeCfg) (f : Int → Int → Int × Int) :
    Spongos → List Int → Spongos × List Int
  | sp, [] => (sp, [])
  | sp, t :: ts =>
    let o := Spongos.step c f sp t
    let r := Spongos.run c f o.1 ts
    (r.1, o.2 :: r.2)

/-- Modelled from the spec: the `absorb` combiner XORs (adds mod 3) the input
trit into the outer state (§4.C). -/
def absorbF (k t : Int) : Int × Int := (mods3 (k + t), 0)

/-- Modelled from the spec: the `encr` combiner — ciphertext is plaintext plus
outer keystream, and the outer part is updated to the ciphertext (§4.C). -/
def encrF (k t : Int) : Int × Int := (mods3 (t + k), mods3 (t + k))

/-- Modelled from the spec: the `decr` combiner — plaintext is ciphertext minus
outer keystream, and the outer part is updated to the ciphertext (§4.C). -/
def decrF (k t : Int) : Int × Int := (t, mods3 (t - k))

/-- Modelled from the spec: the `squeeze` combiner emits the outer-state trit
and leaves it in place (§4.C). -/
def squeezeF (k _t : Int) : Int × Int := (k, k)

/-- Modelled from the spec: `absorb` a trit string (§4.C). -/
def Spongos.absorb (c : SpongeCfg) (sp : Spongos) (ts : List Int) : Spongos :=
  (Spongos.run c absorbF sp ts).1

/-- Modelled from the spec: encrypt a trit string in duplex mode (§4.C). -/
def Spongos.encr (c : SpongeCfg) (sp : Spongos) (ts : List Int) :
    Spongos × List Int :=
  Spongos.run c encrF sp ts

/-- Modelled from the spec: decrypt a trit string in duplex mode (§4.C). -/
def Spongos.decr (c : SpongeCfg) (sp : Spongos) (ts : List Int) :
    Spongos × List Int :=
  Spongos.run c decrF sp ts

/-- Modelled from the spec: squeeze `n` trits out of the sponge (§4.C). -/
def Spongos.squeeze (c : SpongeCfg) (sp : Spongos) (n : Nat) :
    Spongos × List Int :=
  Spongos.run c squeezeF sp (List.replicate n 0)

theorem Spongos.run_length (c : SpongeCfg) (f : Int → Int → Int × Int)
    (sp : Spongos) (ts : List Int) :
    (Spongos.run c f sp ts).2.length = ts.length := by
  induction ts generalizing sp with
  | nil => rfl
  | cons t ts ih => simp [Spongos.run, ih]

theorem Spongos.commit_pre (c : SpongeCfg) (sp : Spongos) :
    (Spongos.commit c sp).pre = [] := by
  unfold Spongos.commit Spongos.permuteF
  split
  · next h => cases sp; simp_all [List.isEmpty_iff]
  · rfl

/-- One decrypt step on the ciphertext emitted by one encrypt step from the
same state recovers the plaintext trit and reaches the same state. -/
theorem Spongos.step_decr_encr (c : SpongeCfg) (sp : Spongos) (t : Int)
    (ht : mods3 t = t) :
    Spongos.step c decrF sp (Spongos.step c encrF sp t).2
      = ((Spongos.step c encrF sp t).1, t) := by
  unfold Spongos.step
  set sp1 := if sp.post.isEmpty then Spongos.permuteF c sp else sp with hsp1
  cases hpost : sp1.post with
  | nil => simp [hpost]
  | cons k rest =>
    simp only [hpost, encrF, decrF]
    rw [mods3_encr_decr, ht]

/-- Decrypting the ciphertext stream produced by encrypting a trit string,
starting from the same sponge state, recovers the trit string and ends in the
same sponge state (§4.C "Decrypt is the exact inverse of encrypt"). -/
theorem Spongos.decr_of_encr (c : SpongeCfg) (sp : Spongos) (ts : List Int)
    (ht : Ternary ts) :
    Spongos.decr c sp (Spongos.encr c sp ts).2
      = ((Spongos.encr c sp ts).1, ts) := by
  unfold Spongos.decr Spongos.encr
  induction ts generalizing sp with
  | nil => rfl
  | cons t ts ih =>
    have ht0 : mods3 t = t := ht t (by simp)
    have hts : Ternary ts := fun x hx => ht x (by simp [hx])
    simp only [Spongos.run]
    rw [Spongos.step_decr_encr c sp t ht0]
    simp only []
    rw [ih _ hts]

/-- PB3 error kind (src/pb3: `Err`); only `Eof` is raised by the mask
command. -/
inductive Err where
  | Eof
deriving DecidableEq

/-- From src/pb3/cmd/mask.rs `WrapMask::wrapn`: `encr` the source trits into
the next `|t|` trits of the buffer.  The buffer is consumed cursor-style, so
the function returns the updated sponge and the trits written. -/
def WrapMask.wrapn (c : SpongeCfg) (sp : Spongos) (t : List Int) :
    Spongos × List Int :=
  Spongos.encr c sp t

/-- From src/pb3/cmd/mask.rs `WrapMask::wrap3`: encode the tryte at the cursor
and `encr` those 3 trits in place. -/
def WrapMask.wrap3 (c : SpongeCfg) (sp : Spongos) (d : Int) :
    Spongos × List Int :=
  Spongos.encr c sp (encodeBal 3 d)

/-- From src/pb3/cmd/mask.rs `WrapMask::unwrapn`: fail with `Err::Eof` unless
`n ≤ |b|`, else `decr` the next `n` trits of the buffer.  Returns the updated
sponge, the decrypted trits and the rest of the buffer. -/
def WrapMask.unwrapn (c : SpongeCfg) (sp : Spongos) (b : List Int) (n : Nat) :
    Except Err (Spongos × List Int × List Int) :=
  if n ≤ b.length then
    let o := Spongos.decr c sp (b.take n)
    Except.ok (o.1, o.2, b.drop n)
  else Except.error Err.Eof

/-- From src/pb3/cmd/mask.rs `WrapMask::unwrap3`: fail with `Err::Eof` unless
3 trits remain, else `decr` the next 3 trits into a temporary and decode the
tryte.  Returns the updated sponge, the tryte and the rest of the buffer. -/
def WrapMask.unwrap3 (c : SpongeCfg) (sp : Spongos) (b : List Int) :
    Except Err (Spongos × Int × List Int) :=
  if 3 ≤ b.length then
    let o := Spongos.decr c sp (b.take 3)
    Except.ok (o.1, decodeBal o.2, b.drop 3)
  else Except.error Err.Eof

/-- NTRU public key size in trits (src/ntru.rs `PK_SIZE`). -/
def PK_SIZE : Nat := 9216

/-- NTRU public key id size in trits (src/ntru.rs `PKID_SIZE`). -/
def PKID_SIZE : Nat := 81

/-- NTRU private key size in trits (src/ntru.rs `SK_SIZE`). -/
def SK_SIZE : Nat := 1024

/-- NTRU encrypted key size in trits (src/ntru.rs `EKEY_SIZE`). -/
def EKEY_SIZE : Nat := 9216

/-- Modelled from the spec: the polynomial degree bound N.  One coefficient
per private-key trit (`round_to_trits` writes `SK_SIZE` trits, one per
coefficient), so `N = SK_SIZE = 1024` and each of the `PK_SIZE = 9216` trits
groups of 9 encodes one coefficient. -/
def Ndeg : Nat := 1024

/-- Modelled from the spec: trits per serialized coefficient,
`PK_SIZE / N = 9`. -/
def tpc : Nat := 9

/-- Modelled from the spec: `small_from_trits` builds the coefficient-form
polynomial whose coefficients are the ternary values of the input, zero beyond
its length (§4.B). -/
def small_from_trits (q : Nat) (ts : List Int) : List (ZMod q) :=
  (List.range Ndeg).map (fun i => ((ts.getD i 0 : Int) : ZMod q))

/-- Modelled from the spec: `small_mul3` multiplies each coefficient by 3
(§4.B). -/
def small_mul3 (q : Nat) (p : List (ZMod q)) : List (ZMod q) :=
  p.map (fun x => 3 * x)

/-- Modelled from the spec: `small3_add1` adds 1 to coefficient 0 (§4.B). -/
def small3_add1 (q : Nat) (p : List (ZMod q)) : List (ZMod q) :=
  match p with
  | [] => []
  | x :: xs => (x + 1) :: xs

/-- Modelled from the spec: `conv` is pointwise multiplication of NTT-form
polynomials (§4.B). -/
def conv (q : Nat) (p r : List (ZMod q)) : List (ZMod q) :=
  List.zipWith (fun a b => a * b) p r

/-- Modelled from the spec: `has_inv` is true iff no NTT-form evaluation is 0
(§4.B). -/
def has_inv (q : Nat) (p : List (ZMod q)) : Bool :=
  p.all (fun x => decide (x ≠ 0))

/-- Modelled from the spec: `inv` takes the coefficient-wise modular inverse of
an NTT-form polynomial (§4.B). -/
def pointInv (q : Nat) (p : List (ZMod q)) : List (ZMod q) :=
  p.map (fun x => x⁻¹)

/-- Modelled from the spec: `to_trits` serializes each coefficient's balanced
representative as 9 fixed-width balanced-ternary trits (§4.B). -/
def to_trits (q : Nat) (p : List (ZMod q)) : List Int :=
  p.flatMap (fun x => encodeBal tpc (balRep q x))

/-- Modelled from the spec: `from_trits` parses `n` coefficients of 9 trits
each as general coefficients in `(-q/2, q/2]`, failing if any decoded
coefficient is out of range (§4.B). -/
def from_trits (q : Nat) : Nat → List Int → Option (List (ZMod q))
  | 0, _ => some []
  | n + 1, ts =>
    let v := decodeBal (ts.take tpc)
    if v.natAbs ≤ q / 2 then
      (from_trits q n (ts.drop tpc)).map (fun cs => ((v : ZMod q) :: cs))
    else none

/-- Modelled from the spec: `round_to_trits` rounds each coefficient to its
balanced ternary residue, `mods 3` of the balanced representative (§4.B). -/
def round_to_trits (q : Nat) (p : List (ZMod q)) : List Int :=
  p.map (fun x => mods3 (balRep q x))

/-- Modelled from the spec: `add_small` adds a small (ternary) polynomial
element-wise in coefficient form (§4.B). -/
def add_small (q : Nat) (p : List (ZMod q)) (ts : List Int) : List (ZMod q) :=
  List.zipWith (fun (x : ZMod q) (t : Int) => x + (t : ZMod q)) p ts

/-- Modelled from the spec: `sub_small` subtracts a small (ternary) polynomial
element-wise in coefficient form (§4.B). -/
def sub_small (q : Nat) (p : List (ZMod q)) (ts : List Int) : List (ZMod q) :=
  List.zipWith (fun (x : ZMod q) (t : Int) => x - (t : ZMod q)) p ts

theorem small_from_trits_length (q : Nat) (ts : List Int) :
    (small_from_trits q ts).length = Ndeg := by
  simp [small_from_trits]

theorem conv_length (q : Nat) (p r : List (ZMod q)) :
    (conv q p r).length = min p.length r.length := by
  simp [conv]

theorem to_trits_length (q : Nat) (p : List (ZMod q)) :
    (to_trits q p).length = tpc * p.length := by
  induction p with
  | nil => simp [to_trits]
  | cons x xs ih =>
    simp only [to_trits, List.flatMap_cons] at ih ⊢
    rw [List.length_append, encodeBal_length, ih, List.length_cons]
    ring

theorem add_small_length (q : Nat) (p : List (ZMod q)) (ts : List Int) :
    (add_small q p ts).length = min p.length ts.length := by
  unfold add_small
  rw [List.length_zipWith]

/-- Parsing the serialization of an `n`-coefficient polynomial succeeds and
recovers it, for any modulus small enough that a balanced representative fits
in 9 trits. -/
theorem from_trits_to_trits (q : Nat) (hq : 0 < q) (hq2 : q ≤ 19683)
    (p : List (ZMod q)) (n : Nat) (hn : p.length = n) :
    from_trits q n (to_trits q p) = some p := by
  induction p generalizing n with
  | nil => cases hn; rfl
  | cons x xs ih =>
    subst hn
    rw [List.length_cons]
    have habs := balRep_natAbs_le q hq x
    have hlen : (encodeBal tpc (balRep q x)).length = tpc := encodeBal_length _ _
    have htake : (to_trits q (x :: xs)).take tpc = encodeBal tpc (balRep q x) := by
      simp only [to_trits, List.flatMap_cons]
      rw [← hlen]
      exact List.take_left _ _
    have hdrop : (to_trits q (x :: xs)).drop tpc = to_trits q xs := by
      simp only [to_trits, List.flatMap_cons]
      rw [← hlen]
      exact List.drop_left _ _
    have hdec : decodeBal (encodeBal tpc (balRep q x)) = balRep q x := by
      apply decodeBal_encodeBal
      have h1 : q / 2 ≤ 9841 := by omega
      have h2 : (3 : Nat) ^ tpc = 19683 := by norm_num [tpc]
      omega
    simp only [from_trits, htake, hdrop, hdec]
    rw [if_pos habs, ih xs.length rfl]
    simp [balRep_intCast q hq x]

/-- Modelled from the spec: the KEM configuration — the sponge configuration,
the NTT and inverse-NTT transforms of the polynomial engine (whose modulus `q`
and root structure the spec leaves open, §9), and the sponge session-key width
`KEY_SIZE = crate::spongos::KEY_SIZE` (§4.F, not fixed by the staged
sources). -/
structure KemCfg (q : Nat) where
  sc : SpongeCfg
  ntt : List (ZMod q) → List (ZMod q)
  intt : List (ZMod q) → List (ZMod q)
  keySize : Nat

/-- Modelled from the spec: a PRNG is a stored sponge key; `gens` rebuilds the
sponge state from the key on each call (§4.D, §5). -/
structure PRNG where
  key : List Int

/-- Modelled from the spec: `gens` initializes a fresh sponge, absorbs the key,
absorbs each nonce with a commit as domain separation, and squeezes the
requested number of trits (§4.D). -/
def PRNG.gens (c : SpongeCfg) (p : PRNG) (nonces : List (List Int)) (n : Nat) :
    List Int :=
  let s0 := Spongos.commit c (Spongos.absorb c (Spongos.start c) p.key)
  let s1 := nonces.foldl (fun s nc => Spongos.commit c (Spongos.absorb c s nc)) s0
  (Spongos.squeeze c s1 n).2

/-- From src/ntru.rs `gen_step`: check small `f` and `g`; on success return
`(NTT(1+3f), NTT(3g), h = NTT(1+3f)⁻¹ ⊛ NTT(3g))`. -/
def gen_step (q : Nat) (C : KemCfg q) (f g : List (ZMod q)) :
    Option (List (ZMod q) × List (ZMod q) × List (ZMod q)) :=
  let f1 := C.ntt (small3_add1 q (small_mul3 q f))
  let g1 := C.ntt (small_mul3 q g)
  if has_inv q f1 && has_inv q g1 then
    some (f1, g1, conv q (pointInv q f1) g1)
  else none

/-- From src/trits.rs (modelled from the spec §4.A): `inc` on a little-endian
balanced-ternary counter; `none` exactly when all trits were `+1`. -/
def incTrits : List Int → Option (List Int)
  | [] => none
  | t :: ts =>
    if t = 1 then (incTrits ts).map (fun r => (-1) :: r)
    else some ((t + 1) :: ts)

/-- Result of the key-generation loop of src/ntru.rs `gen_r`: a found key
material tuple `(sk trits, NTT(1+3f), pk trits, NTT(pk))`, counter overflow
(`gen_r` returns `false`), or artificial fuel exhaustion (present only to make
the recursion structural; proved unreachable). -/
inductive GenOut (q : Nat) where
  | ok : List Int → List (ZMod q) → List Int → List (ZMod q) → GenOut q
  | exhausted : GenOut q
  | outOfFuel : GenOut q
deriving DecidableEq

/-- From src/ntru.rs `gen_r`'s loop: generate `r` from `prng` with nonces
`[nonce, i]`, build small `f` and `g`, run `gen_step`; on success serialize
`INTT(h)` into `pk` and keep `sk = r[0..SK_SIZE]`, otherwise increment the
81-trit counter and retry, returning failure on counter overflow. -/
def gen_loop (q : Nat) (C : KemCfg q) (prng : PRNG) (nonce : List Int) :
    Nat → List Int → GenOut q
  | 0, _ => GenOut.outOfFuel
  | fuel + 1, i =>
    let r := PRNG.gens C.sc prng [nonce, i] (2 * SK_SIZE)
    let f := small_from_trits q (r.take SK_SIZE)
    let g := small_from_trits q (r.drop SK_SIZE)
    match gen_step q C f g with
    | some o => GenOut.ok (r.take SK_SIZE) o.1 (to_trits q (C.intt o.2.2)) o.2.2
    | none =>
      match incTrits i with
      | none => GenOut.exhausted
      | some i1 => gen_loop q C prng nonce fuel i1

/-- From src/ntru.rs `gen_r`: the loop starts from the zero 81-trit counter;
`3 ^ 81` counter values bound the iteration count. -/
def gen_r (q : Nat) (C : KemCfg q) (prng : PRNG) (nonce : List Int) : GenOut q :=
  gen_loop q C prng nonce (3 ^ 81) (List.replicate 81 0)

/-- From src/ntru.rs: private key object, secret trits `sk` and the
precomputed `f = NTT(1+3sk)`. -/
structure PrivateKey (q : Nat) where
  sk : List Int
  f : List (ZMod q)
deriving DecidableEq

/-- From src/ntru.rs: public key object, trits `pk` and the precomputed
NTT form `h`. -/
structure PublicKey (q : Nat) where
  pk : List Int
  h : List (ZMod q)
deriving DecidableEq

/-- From src/ntru.rs `gen`: build the key pair from `gen_r`; the `assert!(ok)`
on generation failure is modelled as `none`. -/
def gen (q : Nat) (C : KemCfg q) (prng : PRNG) (nonce : List Int) :
    Option (PrivateKey q × PublicKey q) :=
  match gen_r q C prng nonce with
  | GenOut.ok sk f pk h => some (⟨sk, f⟩, ⟨pk, h⟩)
  | _ => none

/-- Conversion of a `gen_r` outcome to `gen`'s result; `gen` signals both
counter overflow and the unreachable fuel case as `none` to its caller. -/
def genOutToOption (q : Nat) (o : GenOut q) : Option (PrivateKey q × PublicKey q) :=
  match o with
  | GenOut.ok sk f pk h => some (⟨sk, f⟩, ⟨pk, h⟩)
  | _ => none

/-- From src/ntru.rs `encr_r`, with the intermediate values kept: returns the
capsule `y`, the final sponge and the scratch vector `e` (encrypted key ++
tag) that `encr_r` leaves in the `r` region of `y` before the final
serialization overwrites it. -/
def encr_r_parts (q : Nat) (C : KemCfg q) (s : Spongos) (h : List (ZMod q))
    (r k : List Int) : List Int × Spongos × List Int :=
  let t := C.intt (conv q (C.ntt (small_from_trits q r)) h)
  let y1 := to_trits q t
  let s1 := Spongos.commit C.sc (Spongos.absorb C.sc s y1)
  let ec := Spongos.encr C.sc s1 k
  let sq := Spongos.squeeze C.sc ec.1 (SK_SIZE - C.keySize)
  let e := ec.2 ++ sq.2
  (to_trits q (add_small q t e), sq.1, e)

/-- From src/ntru.rs `encr_r`: encrypt session key `k` under public polynomial
`h` with randomness `r` through sponge `s`. -/
def encr_r (q : Nat) (C : KemCfg q) (s : Spongos) (h : List (ZMod q))
    (r k : List Int) : List Int × Spongos :=
  ((encr_r_parts q C s h r k).1, (encr_r_parts q C s h r k).2.1)

/-- From src/ntru.rs `encr_pk` with the intermediate values kept: randomness
is derived from the PRNG with nonces `[pk, k, n]`. -/
def encr_pk_parts (q : Nat) (C : KemCfg q) (s : Spongos) (prng : PRNG)
    (pk : List Int) (h : List (ZMod q)) (n k : List Int) :
    List Int × Spongos × List Int :=
  encr_r_parts q C s h (PRNG.gens C.sc prng [pk, k, n] SK_SIZE) k

/-- From src/ntru.rs `encr_pk`: encapsulate `k` to public key `(pk, h)` using
`prng`, nonce `n` and sponge `s`, producing the capsule and final sponge. -/
def encr_pk (q : Nat) (C : KemCfg q) (s : Spongos) (prng : PRNG)
    (pk : List Int) (h : List (ZMod q)) (n k : List Int) :
    List Int × Spongos :=
  encr_r q C s h (PRNG.gens C.sc prng [pk, k, n] SK_SIZE) k

/-- From src/ntru.rs `decr_r`: try to decrypt capsule `y` with private
polynomial `f` through sponge `s`.  Returns the success flag, the final sponge
and the key buffer (`k0` untouched when the parse fails). -/
def decr_r (q : Nat) (C : KemCfg q) (s : Spongos) (f : List (ZMod q))
    (y k0 : List Int) : Bool × Spongos × List Int :=
  match from_trits q Ndeg y with
  | none => (false, s, k0)
  | some t =>
    let r := C.intt (conv q (C.ntt t) f)
    let kt := round_to_trits q r
    let rh := to_trits q (sub_small q t kt)
    let s1 := Spongos.commit C.sc (Spongos.absorb C.sc s rh)
    let dk := Spongos.decr C.sc s1 (kt.take C.keySize)
    let sq := Spongos.squeeze C.sc dk.1 (SK_SIZE - C.keySize)
    (decide (sq.2 = kt.drop C.keySize), sq.1, dk.2)

/-- The pair compared by `decr_r`'s final tag check (the squeezed `m` and
`kt[KEY_SIZE..]`), for stating when the tag comparison fails. -/
def decr_cmp (q : Nat) (C : KemCfg q) (s : Spongos) (f : List (ZMod q))
    (t : List (ZMod q)) : List Int × List Int :=
  let r := C.intt (conv q (C.ntt t) f)
  let kt := round_to_trits q r
  let rh := to_trits q (sub_small q t kt)
  let s1 := Spongos.commit C.sc (Spongos.absorb C.sc s rh)
  let dk := Spongos.decr C.sc s1 (kt.take C.keySize)
  let sq := Spongos.squeeze C.sc dk.1 (SK_SIZE - C.keySize)
  (sq.2, kt.drop C.keySize)

/-- From src/ntru.rs `decr_sk`: rebuild `f = NTT(1+3sk)` from the secret trits
and delegate to `decr_r`. -/
def decr_sk (q : Nat) (C : KemCfg q) (s : Spongos) (sk y k0 : List Int) :
    Bool × Spongos × List Int :=
  let f := C.ntt (small3_add1 q (small_mul3 q (small_from_trits q sk)))
  decr_r q C s f y k0

/-- The receiver-side rounded vector `kt` of `decr_r` as a function of the
secret trits and the capsule ([] when the capsule does not parse); rounding
correctness for a capsule is the statement that this equals the sender's
scratch vector `e`. -/
def decap_kt (q : Nat) (C : KemCfg q) (sk y : List Int) : List Int :=
  let f := C.ntt (small3_add1 q (small_mul3 q (small_from_trits q sk)))
  match from_trits q Ndeg y with
  | none => []
  | some t => round_to_trits q (C.intt (conv q (C.ntt t) f))

/-- From src/ntru.rs `PrivateKey::decr_with_s`: decapsulate with the stored
secret trits (the cached `f` polynomial is not consulted). -/
def PrivateKey.decr_with_s (q : Nat) (C : KemCfg q) (key : PrivateKey q)
    (s : Spongos) (y k0 : List Int) : Bool × Spongos × List Int :=
  decr_sk q C s key.sk y k0

/-- From src/ntru.rs `pk_from_trits`: parse a public polynomial, transform to
NTT form and check invertibility. -/
def pk_from_trits (q : Nat) (C : KemCfg q) (pk : List Int) :
    Option (List (ZMod q)) :=
  match from_trits q Ndeg pk with
  | none => none
  | some h0 =>
    let h := C.ntt h0
    if has_inv q h then some h else none

/-- From src/ntru.rs `PublicKey::from_trits`: fail on bad size or
non-invertible polynomial. -/
def PublicKey.from_trits (q : Nat) (C : KemCfg q) (pk : List Int) :
    Option (PublicKey q) :=
  if pk.length = PK_SIZE then
    (pk_from_trits q C pk).map (fun h => ⟨pk, h⟩)
  else none

/-- From src/ntru.rs `PublicKey::from_slice`: same checks as `from_trits` on a
borrowed slice (the copy is immaterial in the model). -/
def PublicKey.from_slice (q : Nat) (C : KemCfg q) (pk : List Int) :
    Option (PublicKey q) :=
  if pk.length = PK_SIZE then
    (pk_from_trits q C pk).map (fun h => ⟨pk, h⟩)
  else none

/-- From src/ntru.rs `impl PartialEq for PublicKey`: equality compares the
`pk` trits alone. -/
def PublicKey.beq (q : Nat) (a b : PublicKey q) : Bool :=
  decide (a.pk = b.pk)

/-- Modelled from the spec: hashing of a `PublicKey` is defined on the `pk`
trits alone (§3 "Equality and hashing are defined on pk alone"); the trit
hash function itself is a parameter. -/
def PublicKey.hashT (q : Nat) (hf : List Int → Nat) (a : PublicKey q) : Nat :=
  hf a.pk

/-- From src/ntru.rs `PublicKey::id`: the first `PKID_SIZE` trits of `pk`. -/
def PublicKey.pkid (q : Nat) (a : PublicKey q) : List Int :=
  a.pk.take PKID_SIZE

/-- Modelled from the spec: the link store maps a relative link to a pair of
committed sponge state and caller-supplied info blob (§6.1); modelled as an
association list with `update` prepending. -/
def LinkStore (Link Info : Type) := List (Link × Spongos × Info)

/-- Modelled from the spec: `LinkStore::update` records the sponge state and
info under the link. -/
def LinkStore.update (Link Info : Type) (store : LinkStore Link Info)
    (l : Link) (sp : Spongos) (i : Info) : LinkStore Link Info :=
  (l, sp, i) :: store

/-- From src/iota-streams-app/src/message/wrapped.rs `WrappedMessage`: the
wrapped message together with the sponge state left by wrapping. -/
structure WrappedMessage (Msg Link : Type) where
  message : Msg
  link : Link
  spongos : Spongos

/-- From src/iota-streams-app/src/message/wrapped.rs `WrappedMessage::commit`:
commit the sponge, store it in the link store under the message's link, and
return the message. -/
def WrappedMessage.commitStore (Msg Link Info : Type) (c : SpongeCfg)
    (wm : WrappedMessage Msg Link) (store : LinkStore Link Info) (info : Info) :
    LinkStore Link Info × Msg :=
  (LinkStore.update Link Info store wm.link (Spongos.commit c wm.spongos) info,
    wm.message)

theorem mods3_idem (x : Int) : mods3 (mods3 x) = mods3 x :=
  mods3_congr (mods3_emod x)

theorem mods3_eq_self_iff (x : Int) : mods3 x = x ↔ (-1 ≤ x ∧ x ≤ 1) := by
  unfold mods3
  constructor
  · intro h; split at h <;> omega
  · intro h; split <;> omega

theorem Ternary_encodeBal (k : Nat) (v : Int) : Ternary (encodeBal k v) := by
  induction k generalizing v with
  | zero => intro t ht; simp [encodeBal] at ht
  | succ k ih =>
    intro t ht
    simp only [encodeBal, List.mem_cons] at ht
    rcases ht with h | h
    · rw [h]; exact mods3_idem v
    · exact ih _ t h

theorem Ternary_to_trits (q : Nat) (p : List (ZMod q)) :
    Ternary (to_trits q p) := by
  intro t ht
  simp only [to_trits, List.mem_flatMap] at ht
  obtain ⟨x, _, hx⟩ := ht
  exact Ternary_encodeBal _ _ t hx

theorem to_trits_cons (q : Nat) (x : ZMod q) (p : List (ZMod q)) :
    to_trits q (x :: p) = encodeBal tpc (balRep q x) ++ to_trits q p := by
  simp [to_trits]

theorem small3_add1_length (q : Nat) (p : List (ZMod q)) :
    (small3_add1 q p).length = p.length := by
  cases p <;> simp [small3_add1]

theorem small_mul3_length (q : Nat) (p : List (ZMod q)) :
    (small_mul3 q p).length = p.length := by
  simp [small_mul3]

theorem small_from_trits_of_length (q : Nat) (ts : List Int)
    (h : ts.length = Ndeg) :
    small_from_trits q ts = ts.map (fun t => ((t : Int) : ZMod q)) := by
  apply List.ext_getElem
  · simp [small_from_trits, h]
  · intro i h1 h2
    simp only [small_from_trits, List.getElem_map, List.getElem_range]
    have hi : i < ts.length := by
      simp [small_from_trits] at h1; omega
    rw [List.getD_eq_getElem ts 0 hi]

/-- `zipWith` against a left replicate of matching length is a map. -/
theorem zipWith_replicate_left_eq (f : Int → Int → Int) (a : Int)
    (l : List Int) (n : Nat) (h : l.length = n) :
    List.zipWith f (List.replicate n a) l = l.map (f a) := by
  induction l generalizing n with
  | nil => simp
  | cons x xs ih =>
    cases n with
    | zero => simp at h
    | succ n =>
      simp only [List.replicate_succ, List.zipWith_cons_cons, List.map_cons]
      rw [ih n (by simpa using h)]

/-- `zipWith` over `ZMod` lists against a left replicate of matching length. -/
theorem zipWith_replicate_left_eqZ (q : Nat) (f : ZMod q → ZMod q → ZMod q)
    (a : ZMod q) (l : List (ZMod q)) (n : Nat) (h : l.length = n) :
    List.zipWith f (List.replicate n a) l = l.map (f a) := by
  induction l generalizing n with
  | nil => simp
  | cons x xs ih =>
    cases n with
    | zero => simp at h
    | succ n =>
      simp only [List.replicate_succ, List.zipWith_cons_cons, List.map_cons]
      rw [ih n (by simpa using h)]

theorem add_small_zero (q : Nat) (p : List (ZMod q)) (n : Nat)
    (h : p.length ≤ n) :
    add_small q p (List.replicate n 0) = p := by
  induction p generalizing n with
  | nil => simp [add_small]
  | cons x xs ih =>
    cases n with
    | zero => simp at h
    | succ n =>
      simp only [add_small, List.replicate_succ, List.zipWith_cons_cons] at *
      rw [show ((0 : Int) : ZMod q) = 0 by simp, add_zero]
      rw [ih n (by simpa using h)]

theorem sub_small_zero (q : Nat) (p : List (ZMod q)) (n : Nat)
    (h : p.length ≤ n) :
    sub_small q p (List.replicate n 0) = p := by
  induction p generalizing n with
  | nil => simp [sub_small]
  | cons x xs ih =>
    cases n with
    | zero => simp at h
    | succ n =>
      simp only [sub_small, List.replicate_succ, List.zipWith_cons_cons] at *
      rw [show ((0 : Int) : ZMod q) = 0 by simp, sub_zero]
      rw [ih n (by simpa using h)]

/-- Subtracting the same small polynomial just added recovers the original. -/
theorem sub_small_add_small (q : Nat) (p : List (ZMod q)) (ts : List Int)
    (h : p.length ≤ ts.length) :
    sub_small q (add_small q p ts) ts = p := by
  induction p generalizing ts with
  | nil => simp [add_small, sub_small]
  | cons x xs ih =>
    cases ts with
    | nil => simp at h
    | cons t ts =>
      simp only [add_small, sub_small, List.zipWith_cons_cons] at *
      rw [add_sub_cancel_right]
      rw [ih ts (by simpa using h)]

/-- A run whose input fits in the remaining block never permutes: the
processed trits move to `pre` (reversed) and the outputs are the combiner's
outputs against the corresponding outer-state trits. -/
theorem Spongos.run_no_permute (c : SpongeCfg) (f : Int → Int → Int × Int)
    (ts pre post inner : List Int) (h : ts.length ≤ post.length) :
    Spongos.run c f ⟨pre, post, inner⟩ ts =
      (⟨(List.zipWith (fun k t => (f k t).1) (post.take ts.length) ts).reverse ++ pre,
        post.drop ts.length, inner⟩,
       List.zipWith (fun k t => (f k t).2) (post.take ts.length) ts) := by
  induction ts generalizing pre post with
  | nil => simp [Spongos.run]
  | cons t ts ih =>
    cases post with
    | nil => simp at h
    | cons k rest =>
      simp only [Spongos.run, Spongos.step, List.isEmpty_cons]
      simp only [Bool.false_eq_true, if_false, List.take_succ_cons,
        List.zipWith_cons_cons, List.drop_succ_cons, List.reverse_cons]
      rw [ih ((f k t).1 :: pre) rest (by simpa using h)]
      simp [List.append_assoc]

/-- Concrete modulus for the worked instances: the classical ternary-NTRU
prime 12289 (any modulus compatible with the spec's constraints works). -/
def qW : Nat := 12289

/-- Concrete public polynomial arising from all-ones `f` and `g`:
`h = (1+3)⁻¹·3 :: (pointwise) … = 3073 :: 1 :: … :: 1`. -/
def hPolyW : List (ZMod qW) :=
  (3073 : ZMod qW) :: List.replicate 1023 1

/-- The serialized public key of the worked instance. -/
def pkTritsW : List Int := to_trits qW hPolyW

/-- The whole-state contents of the boundary sponge of the worked instance at
its commit: the absorbed capsule prefix followed by the unused outer part. -/
def sFW : List Int := pkTritsW ++ List.replicate 1024 0

/-- Concrete permutation for the worked instances: all-zeros on the one
distinguished state, all-ones everywhere else. -/
def prpW (s : List Int) : List Int :=
  if s = sFW then List.replicate 10240 0 else List.replicate 10240 1

/-- Concrete sponge configuration: rate 10240, no capacity, `prpW`. -/
def scW : SpongeCfg := ⟨10240, 0, prpW⟩

/-- Concrete KEM configuration: identity NTT (a legitimate instance of the
abstract transform pair) and session-key width 1. -/
def CW : KemCfg qW := ⟨scW, fun p => p, fun p => p, 1⟩

/-- Concrete PRNG with a single zero key trit. -/
def prngW : PRNG := ⟨[0]⟩

/-- The private key the worked instance generates: all-ones secret trits and
`f = NTT(1+3·1) = 4 :: 3 :: … :: 3`. -/
def skW : PrivateKey qW := ⟨List.replicate 1024 1, (4 : ZMod qW) :: List.replicate 1023 3⟩

/-- The public key the worked instance generates. -/
def pkW : PublicKey qW := ⟨pkTritsW, hPolyW⟩

/-- The boundary sponge of the worked instance: a fresh state. -/
def SW : Spongos := Spongos.start scW

/-- A tiny sponge configuration for the mask-command instances. -/
def scSmallW : SpongeCfg := ⟨2, 1, fun s => s⟩

/-- C2: for every trit string X and every pair of sponge instances in
identical states, unwrapping (unwrapn) the buffer produced by wrapping X
(wrapn) yields X again, and the two sponge instances end in identical
states. -/
theorem mask_wrap_unwrap_roundtrip (c : SpongeCfg) (sp : Spongos)
    (X : List Int) (hX : Ternary X) :
    WrapMask.unwrapn c sp (WrapMask.wrapn c sp X).2 X.length
      = Except.ok ((WrapMask.wrapn c sp X).1, X, []) := by
  unfold WrapMask.unwrapn WrapMask.wrapn
  have hlen : (Spongos.encr c sp X).2.length = X.length :=
    Spongos.run_length c encrF sp X
  rw [if_pos (le_of_eq hlen.symm)]
  rw [List.take_of_length_le (le_of_eq hlen), List.drop_eq_nil_of_le (le_of_eq hlen)]
  rw [Spongos.decr_of_encr c sp X hX]

/-- Witness for C2 at a concrete instance (3-trit string, tiny sponge). -/
theorem mask_wrap_unwrap_roundtrip_check :
    WrapMask.unwrapn scSmallW ⟨[], [0, 1], [0]⟩
        (WrapMask.wrapn scSmallW ⟨[], [0, 1], [0]⟩ [1, -1, 0]).2 3
      = Except.ok ((WrapMask.wrapn scSmallW ⟨[], [0, 1], [0]⟩ [1, -1, 0]).1,
          [1, -1, 0], []) :=
  mask_wrap_unwrap_roundtrip scSmallW ⟨[], [0, 1], [0]⟩ [1, -1, 0] (by decide)

/-- C6: unwrap3 fails with Err::Eof exactly when the input buffer holds fewer
than 3 trits; otherwise it consumes the next 3 trits, decrypts them through
the sponge into a temporary, and returns the decoded tryte. -/
theorem mask_unwrap3_eof_spec (c : SpongeCfg) (sp : Spongos) (b : List Int) :
    (WrapMask.unwrap3 c sp b = Except.error Err.Eof ↔ b.length < 3) ∧
    (b.length < 3 ∨ WrapMask.unwrap3 c sp b
        = Except.ok ((Spongos.decr c sp (b.take 3)).1,
            decodeBal (Spongos.decr c sp (b.take 3)).2, b.drop 3)) := by
  unfold WrapMask.unwrap3
  by_cases h : 3 ≤ b.length
  · rw [if_pos h]
    constructor
    · constructor
      · intro hc; simp at hc
      · intro hc; omega
    · right; rfl
  · rw [if_neg h]
    constructor
    · constructor
      · intro _; omega
      · intro _; rfl
    · left; omega

/-- Witness for C6 at the concrete 2-trit buffer of scenario S5. -/
theorem mask_unwrap3_eof_spec_check :
    (WrapMask.unwrap3 scSmallW ⟨[], [0, 1], [0]⟩ [1, -1]
        = Except.error Err.Eof ↔ [1, -1].length < 3) ∧
    ([1, -1].length < 3 ∨ WrapMask.unwrap3 scSmallW ⟨[], [0, 1], [0]⟩ [1, -1]
        = Except.ok ((Spongos.decr scSmallW ⟨[], [0, 1], [0]⟩ ([1, -1].take 3)).1,
            decodeBal (Spongos.decr scSmallW ⟨[], [0, 1], [0]⟩ ([1, -1].take 3)).2,
            [1, -1].drop 3)) :=
  mask_unwrap3_eof_spec scSmallW ⟨[], [0, 1], [0]⟩ [1, -1]

/-- C7: equality of PublicKey values is defined on the pk trits alone, and
hashing likewise depends only on pk, independent of the precomputed
polynomial h. -/
theorem pubkey_eq_hash_on_pk (q : Nat) (a b : PublicKey q)
    (hf : List Int → Nat) :
    (PublicKey.beq q a b = true ↔ a.pk = b.pk) ∧
    (a.pk = b.pk → PublicKey.hashT q hf a = PublicKey.hashT q hf b) := by
  constructor
  · simp [PublicKey.beq]
  · intro h
    simp [PublicKey.hashT, h]

/-- Witness for C7: two keys with equal pk trits and different cached h. -/
theorem pubkey_eq_hash_on_pk_check :
    (PublicKey.beq qW ⟨[1], []⟩ ⟨[1], [0]⟩ = true
        ↔ (⟨[1], []⟩ : PublicKey qW).pk = (⟨[1], [0]⟩ : PublicKey qW).pk) ∧
    ((⟨[1], []⟩ : PublicKey qW).pk = (⟨[1], [0]⟩ : PublicKey qW).pk →
      PublicKey.hashT qW List.length ⟨[1], []⟩
        = PublicKey.hashT qW List.length ⟨[1], [0]⟩) :=
  pubkey_eq_hash_on_pk qW ⟨[1], []⟩ ⟨[1], [0]⟩ List.length

/-- C8: WrappedMessage::commit commits the sponge (cursor at block start)
before storing the sponge state in the link store, and returns the message. -/
theorem wrapped_commit_stores_committed (Msg Link Info : Type) (c : SpongeCfg)
    (wm : WrappedMessage Msg Link) (store : LinkStore Link Info) (info : Info) :
    (WrappedMessage.commitStore Msg Link Info c wm store info).1
        = LinkStore.update Link Info store wm.link (Spongos.commit c wm.spongos) info ∧
    (Spongos.commit c wm.spongos).pre = [] ∧
    (WrappedMessage.commitStore Msg Link Info c wm store info).2 = wm.message :=
  ⟨rfl, Spongos.commit_pre c wm.spongos, rfl⟩

/-- C9: decapsulation via PrivateKey::decr_with_s depends only on the sk trits
of the private key, not on the stored precomputed polynomial f. -/
theorem decr_with_s_ignores_cached_f (q : Nat) (C : KemCfg q)
    (k1 k2 : PrivateKey q) (s : Spongos) (y k0 : List Int) (h : k1.sk = k2.sk) :
    PrivateKey.decr_with_s q C k1 s y k0
      = PrivateKey.decr_with_s q C k2 s y k0 := by
  unfold PrivateKey.decr_with_s
  rw [h]

/-- Witness for C9: equal sk trits, different cached f polynomials. -/
theorem decr_with_s_ignores_cached_f_check :
    PrivateKey.decr_with_s qW CW ⟨[0], []⟩ SW [1] [0]
      = PrivateKey.decr_with_s qW CW ⟨[0], [5]⟩ SW [1] [0] :=
  decr_with_s_ignores_cached_f qW CW ⟨[0], []⟩ ⟨[0], [5]⟩ SW [1] [0] rfl

/-- C10: PublicKey::from_trits and PublicKey::from_slice return None for every
input whose length differs from PK_SIZE = 9216 trits. -/
theorem pubkey_size_guard (q : Nat) (C : KemCfg q) (ts : List Int)
    (h : ts.length ≠ PK_SIZE) :
    PublicKey.from_trits q C ts = none ∧ PublicKey.from_slice q C ts = none := by
  unfold PublicKey.from_trits PublicKey.from_slice
  rw [if_neg h]
  exact ⟨rfl, rfl⟩

/-- Witness for C10 at the empty trit string. -/
theorem pubkey_size_guard_check :
    PublicKey.from_trits qW CW [] = none ∧ PublicKey.from_slice qW CW [] = none :=
  pubkey_size_guard qW CW [] (by simp [PK_SIZE])

/-- C4: for every PK_SIZE trit string, PublicKey::from_trits returns Some
exactly when the polynomial parses (from_trits) and its NTT form is
invertible (has_inv); otherwise it returns None (absence). -/
theorem pubkey_from_trits_validity (q : Nat) (C : KemCfg q) (pk : List Int)
    (hlen : pk.length = PK_SIZE) :
    (PublicKey.from_trits q C pk).isSome
      ↔ ∃ h0, from_trits q Ndeg pk = some h0 ∧ has_inv q (C.ntt h0) = true := by
  unfold PublicKey.from_trits
  rw [if_pos hlen]
  cases hp : from_trits q Ndeg pk with
  | none => simp [pk_from_trits, hp]
  | some h0 =>
    by_cases hinv : has_inv q (C.ntt h0) = true
    · simp [pk_from_trits, hp, hinv]
    · simp [pk_from_trits, hp, hinv]

/-- Witness for C4 at a concrete PK_SIZE input. -/
theorem pubkey_from_trits_validity_check :
    (PublicKey.from_trits qW CW (List.replicate 9216 1)).isSome
      ↔ ∃ h0, from_trits qW Ndeg (List.replicate 9216 1) = some h0
          ∧ has_inv qW (CW.ntt h0) = true :=
  pubkey_from_trits_validity qW CW (List.replicate 9216 1)
    (by simp only [List.length_replicate, PK_SIZE])

/-- The little-endian value of a balanced-ternary counter, digit `d` counting
as `d + 1` in ordinary base 3. -/
def counterVal (ts : List Int) : Nat :=
  ts.foldr (fun t acc => (t + 1).toNat + 3 * acc) 0

/-- Whether a `gen_r` outcome is a real result rather than the artificial
fuel marker. -/
def isNotOutOfFuel (q : Nat) (o : GenOut q) : Bool :=
  match o with
  | GenOut.outOfFuel => false
  | _ => true

theorem counterVal_le (ts : List Int) (h : Ternary ts) :
    counterVal ts ≤ 3 ^ ts.length - 1 := by
  induction ts with
  | nil => simp [counterVal]
  | cons t ts ih =>
    have ht : -1 ≤ t ∧ t ≤ 1 := by
      have := h t (by simp)
      exact (mods3_eq_self_iff t).mp this
    have hts : Ternary ts := fun x hx => h x (by simp [hx])
    have hrec := ih hts
    have hpos : 1 ≤ (3 : Nat) ^ ts.length := Nat.one_le_pow _ _ (by norm_num)
    simp only [counterVal, List.foldr_cons, List.length_cons] at *
    have hpow : (3 : Nat) ^ (ts.length + 1) = 3 * 3 ^ ts.length := by ring
    omega

theorem incTrits_some (i i1 : List Int) (hT : Ternary i)
    (h : incTrits i = some i1) :
    Ternary i1 ∧ i1.length = i.length ∧ counterVal i1 = counterVal i + 1 := by
  induction i generalizing i1 with
  | nil => simp [incTrits] at h
  | cons t ts ih =>
    have ht : -1 ≤ t ∧ t ≤ 1 := (mods3_eq_self_iff t).mp (hT t (by simp))
    have hts : Ternary ts := fun x hx => hT x (by simp [hx])
    simp only [incTrits] at h
    by_cases h1 : t = 1
    · rw [if_pos h1] at h
      cases hr : incTrits ts with
      | none => rw [hr] at h; simp at h
      | some r =>
        rw [hr] at h
        simp only [Option.map_some', Option.some_inj] at h
        obtain ⟨hrT, hrlen, hrval⟩ := ih r hts hr
        subst h
        refine ⟨?_, by simp [hrlen], ?_⟩
        · intro x hx
          rcases List.mem_cons.mp hx with h | h
          · rw [h]; decide
          · exact hrT x h
        · simp only [counterVal, List.foldr_cons] at *
          subst h1
          omega
    · rw [if_neg h1] at h
      simp only [Option.some_inj] at h
      subst h
      refine ⟨?_, by simp, ?_⟩
      · intro x hx
        rcases List.mem_cons.mp hx with h | h
        · rw [h, mods3_eq_self_iff]; omega
        · exact hts x h
      · simp only [counterVal, List.foldr_cons]
        omega

/-- The key-generation loop reaches a real outcome whenever the fuel covers
the counter values not yet tried. -/
theorem gen_loop_reaches (q : Nat) (C : KemCfg q) (prng : PRNG)
    (nonce : List Int) (fuel : Nat) (i : List Int) (hT : Ternary i)
    (hlen : i.length = 81) (hfuel : 3 ^ 81 - counterVal i ≤ fuel) :
    isNotOutOfFuel q (gen_loop q C prng nonce fuel i) = true := by
  induction fuel generalizing i with
  | zero =>
    have hle := counterVal_le i hT
    rw [hlen] at hle
    have hpos : 1 ≤ (3 : Nat) ^ 81 := Nat.one_le_pow _ _ (by norm_num)
    omega
  | succ fuel ih =>
    simp only [gen_loop]
    cases hgs : gen_step q C (small_from_trits q
        ((PRNG.gens C.sc prng [nonce, i] (2 * SK_SIZE)).take SK_SIZE))
        (small_from_trits q
        ((PRNG.gens C.sc prng [nonce, i] (2 * SK_SIZE)).drop SK_SIZE)) with
    | some o => rfl
    | none =>
      cases hinc : incTrits i with
      | none => rfl
      | some i1 =>
        obtain ⟨hT1, hlen1, hval1⟩ := incTrits_some i i1 hT hinc
        exact ih i1 hT1 (hlen1.trans hlen) (by omega)

/-- C5: for every PRNG and nonce, key generation terminates — the retry loop
of gen_r runs at most 3^81 iterations (the fuel never runs out), and gen
returns exactly the conversion of the loop's outcome, so counter overflow
(GenOut.exhausted) is signalled to the caller as none. -/
theorem gen_terminates_and_signals (q : Nat) (C : KemCfg q) (prng : PRNG)
    (nonce : List Int) :
    isNotOutOfFuel q (gen_r q C prng nonce) = true ∧
    gen q C prng nonce = genOutToOption q (gen_r q C prng nonce) := by
  constructor
  · unfold gen_r
    refine gen_loop_reaches q C prng nonce _ _ ?_ ?_ ?_
    · intro t ht
      rw [List.eq_of_mem_replicate ht]
      decide
    · rw [List.length_replicate]
    · exact Nat.sub_le _ _
  · unfold gen genOutToOption
    cases gen_r q C prng nonce <;> rfl

theorem getD_append_left (l1 l2 : List Int) (i : Nat) (h : i < l1.length) :
    (l1 ++ l2).getD i 7 = l1.getD i 7 := by
  induction l1 generalizing i with
  | nil => simp at h
  | cons x xs ih =>
    cases i with
    | zero => rfl
    | succ i =>
      simp only [List.cons_append, List.getD_cons_succ]
      exact ih i (by simpa using h)

theorem getD_map_at (f : Int → Int) (l : List Int) (i : Nat)
    (h : i < l.length) : (l.map f).getD i 7 = f (l.getD i 7) := by
  induction l generalizing i with
  | nil => simp at h
  | cons x xs ih =>
    cases i with
    | zero => rfl
    | succ i =>
      simp only [List.map_cons, List.getD_cons_succ]
      exact ih i (by simpa using h)

theorem getD_replicate_at (n : Nat) (a : Int) (i : Nat) (h : i < n) :
    (List.replicate n a).getD i 7 = a := by
  induction n generalizing i with
  | zero => omega
  | succ n ih =>
    rw [List.replicate_succ]
    cases i with
    | zero => rfl
    | succ i =>
      simp only [List.getD_cons_succ]
      exact ih i (by omega)

theorem ne_of_getD_ne (l1 l2 : List Int) (i : Nat)
    (h : l1.getD i 7 ≠ l2.getD i 7) : l1 ≠ l2 :=
  fun he => h (by rw [he])

theorem map_mods3_of_ternary (l : List Int) (h : Ternary l) :
    l.map mods3 = l := by
  induction l with
  | nil => rfl
  | cons x xs ih =>
    rw [List.map_cons, h x (by simp), ih (fun t ht => h t (by simp [ht]))]

/-- Committing any mid-block state of the worked sponge gives the all-zeros or
all-ones block according to whether the full state is the distinguished
one. -/
theorem commit_eval_scW (pre post inner : List Int) (h : pre ≠ []) :
    Spongos.commit scW ⟨pre, post, inner⟩
      = (if pre.reverse ++ post ++ inner = sFW
         then (⟨[], List.replicate 10240 0, []⟩ : Spongos)
         else ⟨[], List.replicate 10240 1, []⟩) := by
  unfold Spongos.commit Spongos.permuteF
  rw [if_neg (by simpa [List.isEmpty_iff] using h)]
  show (⟨[], (prpW _).take scW.rate, (prpW _).drop scW.rate⟩ : Spongos) = _
  unfold prpW
  split
  · rw [show scW.rate = 10240 from rfl, List.take_replicate, List.drop_replicate]
    simp only [Nat.min_self, Nat.sub_self, List.replicate_zero]
  · rw [show scW.rate = 10240 from rfl, List.take_replicate, List.drop_replicate]
    simp only [Nat.min_self, Nat.sub_self, List.replicate_zero]

theorem pkTritsW_length : pkTritsW.length = 9216 := by
  unfold pkTritsW
  rw [to_trits_length]
  simp [hPolyW, tpc]

theorem balRep_3073W : balRep qW (3073 : ZMod qW) = 3073 := by decide

theorem pkTritsW_getD0 : pkTritsW.getD 0 7 = 1 := by
  unfold pkTritsW hPolyW
  rw [to_trits_cons, getD_append_left _ _ 0 (by rw [encodeBal_length]; norm_num [tpc])]
  rw [balRep_3073W]
  decide

theorem pkTritsW_getD2 : pkTritsW.getD 2 7 = -1 := by
  unfold pkTritsW hPolyW
  rw [to_trits_cons, getD_append_left _ _ 2 (by rw [encodeBal_length]; norm_num [tpc])]
  rw [balRep_3073W]
  decide

theorem sFW_getD0 : sFW.getD 0 7 = 1 := by
  unfold sFW
  rw [getD_append_left _ _ 0 (by rw [pkTritsW_length]; norm_num)]
  exact pkTritsW_getD0

theorem sFW_getD2 : sFW.getD 2 7 = -1 := by
  unfold sFW
  rw [getD_append_left _ _ 2 (by rw [pkTritsW_length]; norm_num)]
  exact pkTritsW_getD2

theorem zeros_ne_sFW : List.replicate 10240 (0 : Int) ≠ sFW :=
  ne_of_getD_ne _ _ 0
    (by rw [getD_replicate_at _ _ 0 (by norm_num), sFW_getD0]; norm_num)

theorem ones_ne_sFW : List.replicate 10240 (1 : Int) ≠ sFW :=
  ne_of_getD_ne _ _ 2
    (by rw [getD_replicate_at _ _ 2 (by norm_num), sFW_getD2]; norm_num)

/-- Absorbing a ternary string into the fresh worked sponge. -/
theorem absorb_start_scW (ts : List Int) (hT : Ternary ts)
    (hlen : ts.length ≤ 10240) :
    Spongos.absorb scW (Spongos.start scW) ts
      = ⟨ts.reverse, List.replicate (10240 - ts.length) 0, []⟩ := by
  unfold Spongos.absorb Spongos.start
  rw [show scW.rate = 10240 from rfl, show scW.cap = 0 from rfl,
    List.replicate_zero]
  rw [Spongos.run_no_permute scW absorbF ts [] (List.replicate 10240 0) []
    (by rw [List.length_replicate]; exact hlen)]
  rw [List.take_replicate, Nat.min_eq_left hlen]
  rw [zipWith_replicate_left_eq _ _ ts ts.length rfl]
  have : ts.map (fun t => (absorbF 0 t).1) = ts := by
    have h0 : ts.map (fun t => (absorbF 0 t).1) = ts.map mods3 := by
      apply List.map_congr_left
      intro t _
      simp [absorbF]
    rw [h0, map_mods3_of_ternary ts hT]
  rw [this, List.append_nil, List.drop_replicate]

/-- Absorbing into an all-ones outer block. -/
theorem absorb_ones_scW (ts pre inner : List Int) (m : Nat)
    (hlen : ts.length ≤ m) :
    Spongos.absorb scW ⟨pre, List.replicate m 1, inner⟩ ts
      = ⟨(ts.map (fun t => mods3 (1 + t))).reverse ++ pre,
         List.replicate (m - ts.length) 1, inner⟩ := by
  unfold Spongos.absorb
  rw [Spongos.run_no_permute scW absorbF ts pre (List.replicate m 1) inner
    (by rw [List.length_replicate]; exact hlen)]
  rw [List.take_replicate, Nat.min_eq_left hlen]
  rw [zipWith_replicate_left_eq _ _ ts ts.length rfl]
  rw [List.drop_replicate]
  rfl

/-- Squeezing from a uniform outer block. -/
theorem squeeze_block_scW (x : Int) (pre inner : List Int) (m n : Nat)
    (h : n ≤ m) :
    Spongos.squeeze scW ⟨pre, List.replicate m x, inner⟩ n
      = (⟨List.replicate n x ++ pre, List.replicate (m - n) x, inner⟩,
         List.replicate n x) := by
  unfold Spongos.squeeze
  rw [Spongos.run_no_permute scW squeezeF (List.replicate n 0) pre
    (List.replicate m x) inner
    (by rw [List.length_replicate, List.length_replicate]; exact h)]
  rw [List.length_replicate, List.take_replicate, Nat.min_eq_left h]
  rw [List.zipWith_replicate', List.zipWith_replicate']
  rw [List.reverse_replicate, List.drop_replicate]
  rfl

theorem cons_rep_ten : (0 : Int) :: List.replicate 10239 0 = List.replicate 10240 0 := by
  rw [← List.replicate_succ]

theorem cons_rep_ten1 : (1 : Int) :: List.replicate 10239 1 = List.replicate 10240 1 := by
  rw [← List.replicate_succ]

/-- The worked PRNG's sponge after absorbing its key and committing. -/
theorem prng_key_state_scW :
    Spongos.commit scW (Spongos.absorb scW (Spongos.start scW) prngW.key)
      = ⟨[], List.replicate 10240 1, []⟩ := by
  have h1 : Spongos.absorb scW (Spongos.start scW) [0]
      = ⟨[0], List.replicate 10239 0, []⟩ := by
    rw [absorb_start_scW [0] (by decide) (by norm_num)]
    rfl
  have hcond : ¬([(0 : Int)].reverse ++ List.replicate 10239 0 ++ [] = sFW) := by
    intro hc
    apply zeros_ne_sFW
    rw [← cons_rep_ten]
    rw [show [(0 : Int)].reverse = [0] from rfl, List.append_nil,
      List.singleton_append] at hc
    exact hc
  show Spongos.commit scW (Spongos.absorb scW (Spongos.start scW) [0]) = _
  rw [h1, commit_eval_scW _ _ _ (by simp), if_neg hcond]

/-- Absorbing the all-zeros 81-trit counter and committing keeps the all-ones
block. -/
theorem absorb_counter_state_scW :
    Spongos.commit scW (Spongos.absorb scW ⟨[], List.replicate 10240 1, []⟩
        (List.replicate 81 0))
      = ⟨[], List.replicate 10240 1, []⟩ := by
  rw [absorb_ones_scW _ _ _ _ (by rw [List.length_replicate]; norm_num)]
  rw [List.map_replicate, List.length_replicate]
  have hm : mods3 (1 + 0) = 1 := by decide
  have h2 : ((List.replicate 81 (mods3 (1 + 0))).reverse ++ []).reverse
        ++ List.replicate (10240 - 81) 1 ++ []
      = List.replicate 10240 1 := by
    rw [hm, List.append_nil, List.append_nil, List.reverse_replicate,
      List.reverse_replicate, ← List.replicate_add]
  have hcond : ¬(((List.replicate 81 (mods3 (1 + 0))).reverse ++ []).reverse
        ++ List.replicate (10240 - 81) 1 ++ [] = sFW) := by
    intro hc
    apply ones_ne_sFW
    rw [← h2]
    exact hc
  rw [commit_eval_scW _ _ _ (by simp), if_neg hcond]

/-- The PRNG stream used by key generation in the worked instance. -/
theorem gens_gen_eval :
    PRNG.gens scW prngW [[], List.replicate 81 0] (2 * SK_SIZE)
      = List.replicate 2048 1 := by
  simp only [PRNG.gens]
  rw [prng_key_state_scW]
  rw [List.foldl_cons, List.foldl_cons, List.foldl_nil]
  have habs : Spongos.absorb scW ⟨[], List.replicate 10240 1, []⟩ [] =
      ⟨[], List.replicate 10240 1, []⟩ := rfl
  have hcom : Spongos.commit scW ⟨[], List.replicate 10240 1, []⟩ =
      ⟨[], List.replicate 10240 1, []⟩ := rfl
  rw [habs, hcom, absorb_counter_state_scW]
  rw [squeeze_block_scW 1 [] [] 10240 (2 * SK_SIZE) (by norm_num [SK_SIZE])]
  rfl

theorem rep1024_succ (x : ZMod qW) :
    List.replicate 1024 x = x :: List.replicate 1023 x := List.replicate_succ x 1023

/-- The private polynomial `NTT(1+3f)` of the worked instance. -/
theorem small_chain_ones :
    CW.ntt (small3_add1 qW (small_mul3 qW
        (small_from_trits qW (List.replicate 1024 1))))
      = (4 : ZMod qW) :: List.replicate 1023 3 := by
  rw [small_from_trits_of_length qW _ (by simp only [List.length_replicate, Ndeg])]
  rw [List.map_replicate, small_mul3, List.map_replicate]
  rw [show ((((1 : Int) : ZMod qW) : ZMod qW) = (1 : ZMod qW)) from by norm_num]
  rw [show ((3 : ZMod qW) * 1 = (3 : ZMod qW)) from by norm_num]
  rw [rep1024_succ, small3_add1]
  show ((3 : ZMod qW) + 1) :: _ = _
  norm_num

theorem has_inv_f1W :
    has_inv qW ((4 : ZMod qW) :: List.replicate 1023 3) = true := by
  simp only [has_inv, List.all_cons, List.all_eq_true, List.mem_replicate,
    Bool.and_eq_true, decide_eq_true_eq]
  refine ⟨by decide, ?_⟩
  intro x hx
  rw [hx.2]
  decide

theorem has_inv_g1W :
    has_inv qW ((3 : ZMod qW) :: List.replicate 1023 3) = true := by
  simp only [has_inv, List.all_cons, List.all_eq_true, List.mem_replicate,
    Bool.and_eq_true, decide_eq_true_eq]
  refine ⟨by decide, ?_⟩
  intro x hx
  rw [hx.2]
  decide

theorem factW : Fact (Nat.Prime qW) := ⟨by norm_num [qW]⟩

theorem inv4W : (4 : ZMod qW)⁻¹ = 9217 := by
  have h : (4 : ZMod qW) * 9217 = 1 := by decide
  haveI := factW
  exact inv_eq_of_mul_eq_one_right h

theorem inv3W : (3 : ZMod qW)⁻¹ = 8193 := by
  have h : (3 : ZMod qW) * 8193 = 1 := by decide
  haveI := factW
  exact inv_eq_of_mul_eq_one_right h

theorem gen_step_ones :
    gen_step qW CW (small_from_trits qW (List.replicate 1024 1))
        (small_from_trits qW (List.replicate 1024 1))
      = some ((4 : ZMod qW) :: List.replicate 1023 3,
              (3 : ZMod qW) :: List.replicate 1023 3, hPolyW) := by
  unfold gen_step
  have hg : CW.ntt (small_mul3 qW (small_from_trits qW (List.replicate 1024 1)))
      = (3 : ZMod qW) :: List.replicate 1023 3 := by
    rw [small_from_trits_of_length qW _ (by simp only [List.length_replicate, Ndeg])]
    rw [List.map_replicate, small_mul3, List.map_replicate]
    rw [show ((((1 : Int) : ZMod qW) : ZMod qW) = (1 : ZMod qW)) from by norm_num]
    rw [show ((3 : ZMod qW) * 1 = (3 : ZMod qW)) from by norm_num]
    exact rep1024_succ 3
  rw [small_chain_ones, hg]
  simp only [has_inv_f1W, has_inv_g1W, Bool.and_self, if_true]
  have hconv : conv qW (pointInv qW ((4 : ZMod qW) :: List.replicate 1023 3))
      ((3 : ZMod qW) :: List.replicate 1023 3) = hPolyW := by
    unfold pointInv conv
    rw [List.map_cons, List.map_replicate, List.zipWith_cons_cons,
      List.zipWith_replicate']
    rw [inv4W, inv3W]
    rw [show ((9217 : ZMod qW) * 3 = (3073 : ZMod qW)) from by decide]
    rw [show ((8193 : ZMod qW) * 3 = (1 : ZMod qW)) from by decide]
    rfl
  rw [hconv]

/-- Key generation signals its outcome through `genOutToOption`. -/
theorem gen_eq_form (q : Nat) (C : KemCfg q) (prng : PRNG) (nonce : List Int) :
    gen q C prng nonce = genOutToOption q (gen_r q C prng nonce) := by
  unfold gen genOutToOption
  cases gen_r q C prng nonce <;> rfl

theorem gen_loop_succ_ok (q : Nat) (C : KemCfg q) (prng : PRNG)
    (nonce : List Int) (fuel : Nat) (i r : List Int)
    (f1 g1 h1 : List (ZMod q))
    (hr : PRNG.gens C.sc prng [nonce, i] (2 * SK_SIZE) = r)
    (hstep : gen_step q C (small_from_trits q (r.take SK_SIZE))
        (small_from_trits q (r.drop SK_SIZE)) = some (f1, g1, h1)) :
    gen_loop q C prng nonce (fuel + 1) i
      = GenOut.ok (r.take SK_SIZE) f1 (to_trits q (C.intt h1)) h1 := by
  simp only [gen_loop, hr, hstep]

theorem gen_step_eval :
    gen_step qW CW (small_from_trits qW ((List.replicate 2048 1).take SK_SIZE))
        (small_from_trits qW ((List.replicate 2048 1).drop SK_SIZE))
      = some ((4 : ZMod qW) :: List.replicate 1023 3,
              (3 : ZMod qW) :: List.replicate 1023 3, hPolyW) := by
  rw [List.take_replicate, List.drop_replicate]
  rw [show min SK_SIZE 2048 = 1024 from by norm_num [SK_SIZE]]
  rw [show (2048 - SK_SIZE) = 1024 from by norm_num [SK_SIZE]]
  exact gen_step_ones

theorem gen_loop_eval : gen_r qW CW prngW []
    = GenOut.ok (List.replicate 1024 1)
        ((4 : ZMod qW) :: List.replicate 1023 3) pkTritsW hPolyW := by
  unfold gen_r
  obtain ⟨fuel, hfuel⟩ : ∃ fuel, (3 : Nat) ^ 81 = fuel + 1 :=
    ⟨3 ^ 81 - 1, by have : 0 < (3 : Nat) ^ 81 := pow_pos (by norm_num) 81; omega⟩
  rw [hfuel]
  rw [gen_loop_succ_ok qW CW prngW [] fuel (List.replicate 81 0)
      (List.replicate 2048 1) ((4 : ZMod qW) :: List.replicate 1023 3)
      ((3 : ZMod qW) :: List.replicate 1023 3) hPolyW
      (by rw [show CW.sc = scW from rfl]; exact gens_gen_eval) gen_step_eval]
  rw [List.take_replicate]
  rw [show min SK_SIZE 2048 = 1024 from by norm_num [SK_SIZE]]
  rfl

/-- Key generation of the worked instance succeeds on the first counter
value. -/
theorem gen_eval : gen qW CW prngW [] = some (skW, pkW) := by
  rw [gen_eq_form, gen_loop_eval]
  rfl

/-- Evaluation interface for `encr_r_parts`: one equation per stage. -/
theorem encr_r_parts_steps (q : Nat) (C : KemCfg q) (s : Spongos)
    (h : List (ZMod q)) (r k : List Int) (t : List (ZMod q)) (s1 : Spongos)
    (ec sq : Spongos × List Int)
    (ht : C.intt (conv q (C.ntt (small_from_trits q r)) h) = t)
    (hs1 : Spongos.commit C.sc (Spongos.absorb C.sc s (to_trits q t)) = s1)
    (hec : Spongos.encr C.sc s1 k = ec)
    (hsq : Spongos.squeeze C.sc ec.1 (SK_SIZE - C.keySize) = sq) :
    encr_r_parts q C s h r k
      = (to_trits q (add_small q t (ec.2 ++ sq.2)), sq.1, ec.2 ++ sq.2) := by
  simp only [encr_r_parts]
  rw [ht, hs1, hec, hsq]

/-- Evaluation interface for `decr_r`: one equation per stage. -/
theorem decr_r_steps (q : Nat) (C : KemCfg q) (s : Spongos) (f : List (ZMod q))
    (y k0 : List Int) (t : List (ZMod q)) (kt rh : List Int) (s1 : Spongos)
    (dk sq : Spongos × List Int)
    (hparse : from_trits q Ndeg y = some t)
    (hkt : round_to_trits q (C.intt (conv q (C.ntt t) f)) = kt)
    (hrh : to_trits q (sub_small q t kt) = rh)
    (hs1 : Spongos.commit C.sc (Spongos.absorb C.sc s rh) = s1)
    (hdk : Spongos.decr C.sc s1 (kt.take C.keySize) = dk)
    (hsq : Spongos.squeeze C.sc dk.1 (SK_SIZE - C.keySize) = sq) :
    decr_r q C s f y k0 = (decide (sq.2 = kt.drop C.keySize), sq.1, dk.2) := by
  unfold decr_r
  simp only [hparse]
  rw [hkt, hrh, hs1, hdk, hsq]

/-- Evaluation interface for `decap_kt`. -/
theorem decap_kt_steps (q : Nat) (C : KemCfg q) (sk y : List Int)
    (f t : List (ZMod q)) (kt : List Int)
    (hf : C.ntt (small3_add1 q (small_mul3 q (small_from_trits q sk))) = f)
    (hparse : from_trits q Ndeg y = some t)
    (hkt : round_to_trits q (C.intt (conv q (C.ntt t) f)) = kt) :
    decap_kt q C sk y = kt := by
  unfold decap_kt
  rw [hf]
  simp only [hparse]
  exact hkt

/-- Evaluation interface for `decr_sk`. -/
theorem decr_sk_steps (q : Nat) (C : KemCfg q) (s : Spongos)
    (sk y k0 : List Int) (f : List (ZMod q))
    (hf : C.ntt (small3_add1 q (small_mul3 q (small_from_trits q sk))) = f) :
    decr_sk q C s sk y k0 = decr_r q C s f y k0 := by
  unfold decr_sk
  rw [hf]

/-- Any public polynomial produced by the generation loop has `Ndeg`
coefficients (given a length-preserving NTT). -/
theorem gen_loop_ok_h_length (q : Nat) (C : KemCfg q) (prng : PRNG)
    (nonce : List Int) (hn : ∀ p : List (ZMod q), (C.ntt p).length = p.length)
    (fuel : Nat) (i a1 : List Int) (b1 : List (ZMod q)) (c1 : List Int)
    (d1 : List (ZMod q))
    (h : gen_loop q C prng nonce fuel i = GenOut.ok a1 b1 c1 d1) :
    d1.length = Ndeg := by
  induction fuel generalizing i with
  | zero => simp [gen_loop] at h
  | succ fuel ih =>
    simp only [gen_loop] at h
    cases hgs : gen_step q C (small_from_trits q
        ((PRNG.gens C.sc prng [nonce, i] (2 * SK_SIZE)).take SK_SIZE))
        (small_from_trits q
        ((PRNG.gens C.sc prng [nonce, i] (2 * SK_SIZE)).drop SK_SIZE)) with
    | some o =>
      rw [hgs] at h
      simp only [GenOut.ok.injEq] at h
      obtain ⟨_, _, _, hd⟩ := h
      simp only [gen_step] at hgs
      split at hgs
      · simp only [Option.some_inj] at hgs
        rw [← hd, ← hgs]
        simp only [conv_length, pointInv, List.length_map, hn,
          small3_add1_length, small_mul3_length, small_from_trits_length]
        exact Nat.min_self Ndeg
      · cases hgs
    | none =>
      rw [hgs] at h
      cases hinc : incTrits i with
      | none => rw [hinc] at h; cases h
      | some i1 =>
        rw [hinc] at h
        exact ih i1 h

/-- The public polynomial of any key pair produced by `gen` has `Ndeg`
coefficients. -/
theorem gen_ok_h_length (q : Nat) (C : KemCfg q) (prng : PRNG)
    (nonce : List Int) (hn : ∀ p : List (ZMod q), (C.ntt p).length = p.length)
    (sk : PrivateKey q) (pk : PublicKey q)
    (hgen : gen q C prng nonce = some (sk, pk)) : pk.h.length = Ndeg := by
  rw [gen_eq_form] at hgen
  cases hr : gen_r q C prng nonce with
  | ok a b c d =>
    rw [hr] at hgen
    simp only [genOutToOption, Option.some_inj, Prod.mk.injEq] at hgen
    have hd : pk.h = d := by rw [← hgen.2]
    rw [hd]
    exact gen_loop_ok_h_length q C prng nonce hn _ _ _ _ _ _ hr
  | exhausted => rw [hr] at hgen; cases hgen
  | outOfFuel => rw [hr] at hgen; cases hgen

/-- Core of KEM correctness at the `encr_r`/`decr_r` level: with the sender's
parts named, whenever the receiver's rounding recovers the sender's scratch
vector (the spec's §4.B rounding contract, hypothesis `hround`),
decapsulation succeeds and returns exactly the session key. -/
theorem encr_decr_core (q : Nat) (C : KemCfg q)
    (hq0 : 3 < q) (hq : q ≤ 19683) (hks : C.keySize ≤ SK_SIZE)
    (hn : ∀ p : List (ZMod q), (C.ntt p).length = p.length)
    (hi : ∀ p : List (ZMod q), (C.intt p).length = p.length)
    (S : Spongos) (h : List (ZMod q)) (hh : h.length = Ndeg)
    (r K k0 sk : List Int) (hK : K.length = C.keySize) (hKt : Ternary K)
    (hround : decap_kt q C sk (encr_r_parts q C S h r K).1
        = (encr_r_parts q C S h r K).2.2) :
    decr_sk q C S sk (encr_r_parts q C S h r K).1 k0
      = (true, (encr_r_parts q C S h r K).2.1, K) := by
  obtain ⟨t, ht⟩ : ∃ t, C.intt (conv q (C.ntt (small_from_trits q r)) h) = t :=
    ⟨_, rfl⟩
  obtain ⟨s1, hs1⟩ : ∃ s1,
      Spongos.commit C.sc (Spongos.absorb C.sc S (to_trits q t)) = s1 := ⟨_, rfl⟩
  obtain ⟨ec, hec⟩ : ∃ ec, Spongos.encr C.sc s1 K = ec := ⟨_, rfl⟩
  obtain ⟨sq, hsq⟩ : ∃ sq,
      Spongos.squeeze C.sc ec.1 (SK_SIZE - C.keySize) = sq := ⟨_, rfl⟩
  have hparts := encr_r_parts_steps q C S h r K t s1 ec sq ht hs1 hec hsq
  rw [hparts] at hround ⊢
  obtain ⟨f, hf⟩ : ∃ f,
      C.ntt (small3_add1 q (small_mul3 q (small_from_trits q sk))) = f := ⟨_, rfl⟩
  have hc_len : ec.2.length = C.keySize := by
    rw [← hec]
    show (Spongos.run C.sc encrF s1 K).2.length = C.keySize
    rw [Spongos.run_length]
    exact hK
  have htag_len : sq.2.length = SK_SIZE - C.keySize := by
    rw [← hsq]
    show (Spongos.run C.sc squeezeF ec.1
      (List.replicate (SK_SIZE - C.keySize) 0)).2.length = _
    rw [Spongos.run_length, List.length_replicate]
  have he_len : (ec.2 ++ sq.2).length = SK_SIZE := by
    rw [List.length_append, hc_len, htag_len]
    omega
  have ht_len : t.length = Ndeg := by
    rw [← ht, hi, conv_length, hn, small_from_trits_length, hh]
    exact Nat.min_self Ndeg
  have ht2_len : (add_small q t (ec.2 ++ sq.2)).length = Ndeg := by
    rw [add_small_length, ht_len, he_len]
    have : Ndeg = SK_SIZE := rfl
    rw [this, Nat.min_self]
  have hparse : from_trits q Ndeg (to_trits q (add_small q t (ec.2 ++ sq.2)))
      = some (add_small q t (ec.2 ++ sq.2)) :=
    from_trits_to_trits q (by omega) hq _ Ndeg ht2_len
  have hkt : round_to_trits q
      (C.intt (conv q (C.ntt (add_small q t (ec.2 ++ sq.2))) f))
      = ec.2 ++ sq.2 := by
    have h2 := hround
    unfold decap_kt at h2
    rw [hf] at h2
    simp only [hparse] at h2
    exact h2
  have hsub : sub_small q (add_small q t (ec.2 ++ sq.2)) (ec.2 ++ sq.2) = t :=
    sub_small_add_small q t _ (by rw [he_len, ht_len]; exact Nat.le.refl)
  have htake : (ec.2 ++ sq.2).take C.keySize = ec.2 := by
    rw [← hc_len]
    exact List.take_left ec.2 sq.2
  have hdrop : (ec.2 ++ sq.2).drop C.keySize = sq.2 := by
    rw [← hc_len]
    exact List.drop_left ec.2 sq.2
  have hdk : Spongos.decr C.sc s1 ((ec.2 ++ sq.2).take C.keySize) = (ec.1, K) := by
    rw [htake, ← hec]
    exact Spongos.decr_of_encr C.sc s1 K hKt
  have hdecr := decr_r_steps q C S f
    (to_trits q (add_small q t (ec.2 ++ sq.2))) k0
    (add_small q t (ec.2 ++ sq.2)) (ec.2 ++ sq.2) (to_trits q t) s1
    (ec.1, K) sq hparse hkt (by rw [hsub]) hs1 hdk hsq
  rw [decr_sk_steps q C S sk _ k0 f hf, hdecr, hdrop]
  rw [decide_eq_true rfl]

/-- C1: for every key pair (sk, pk) produced by gen with any PRNG and nonce,
every session key K of KEY_SIZE trits, and every pair of sponge instances in
identical states at the encap/decap boundary, decapsulating the capsule
produced by encapsulation succeeds (returns true) and writes exactly K into
the output key buffer.  The polynomial engine, sponge and PRNG are modelled
from the spec with the NTT pair and modulus as parameters; `hround` is the
spec's §4.B rounding contract ("round(r·h·(1+3f) mod q) reliably recovers…")
stated for this capsule. -/
theorem kem_encap_decap (q : Nat) (C : KemCfg q)
    (hq0 : 3 < q) (hq : q ≤ 19683) (hks : C.keySize ≤ SK_SIZE)
    (hn : ∀ p : List (ZMod q), (C.ntt p).length = p.length)
    (hi : ∀ p : List (ZMod q), (C.intt p).length = p.length)
    (prng : PRNG) (nonce nonce2 K k0 : List Int)
    (hK : K.length = C.keySize) (hKt : Ternary K)
    (sk : PrivateKey q) (pk : PublicKey q)
    (hgen : gen q C prng nonce = some (sk, pk))
    (S : Spongos)
    (hround : decap_kt q C sk.sk
        (encr_pk_parts q C S prng pk.pk pk.h nonce2 K).1
      = (encr_pk_parts q C S prng pk.pk pk.h nonce2 K).2.2) :
    decr_sk q C S sk.sk (encr_pk q C S prng pk.pk pk.h nonce2 K).1 k0
      = (true, (encr_pk q C S prng pk.pk pk.h nonce2 K).2, K) :=
  encr_decr_core q C hq0 hq hks hn hi S pk.h
    (gen_ok_h_length q C prng nonce hn sk pk hgen)
    (PRNG.gens C.sc prng [pk.pk, K, nonce2] SK_SIZE) K k0 sk.sk hK hKt hround

theorem hPolyW_length : hPolyW.length = 1024 := by
  simp only [hPolyW, List.length_cons, List.length_replicate]

theorem Ternary_pkTritsW : Ternary pkTritsW := Ternary_to_trits qW hPolyW

theorem sft_ones : small_from_trits qW (List.replicate 1024 1)
    = List.replicate 1024 (1 : ZMod qW) := by
  rw [small_from_trits_of_length qW _ (by simp only [List.length_replicate, Ndeg])]
  rw [List.map_replicate]
  norm_num

theorem conv_ones : conv qW (List.replicate 1024 (1 : ZMod qW)) hPolyW
    = hPolyW := by
  unfold conv
  rw [zipWith_replicate_left_eqZ qW _ _ hPolyW 1024 hPolyW_length]
  have h1 : ∀ x ∈ hPolyW, (1 : ZMod qW) * x = x := fun x _ => one_mul x
  rw [List.map_congr_left h1]
  show List.map id hPolyW = hPolyW
  exact List.map_id hPolyW

/-- The PRNG stream used by encapsulation in the worked instance. -/
theorem gens_encap_eval :
    PRNG.gens scW prngW [pkTritsW, [0], []] SK_SIZE = List.replicate 1024 1 := by
  simp only [PRNG.gens]
  rw [prng_key_state_scW]
  rw [List.foldl_cons, List.foldl_cons, List.foldl_cons, List.foldl_nil]
  have hstep1 : Spongos.commit scW
      (Spongos.absorb scW ⟨[], List.replicate 10240 1, []⟩ pkTritsW)
      = ⟨[], List.replicate 10240 1, []⟩ := by
    rw [absorb_ones_scW _ _ _ _ (by rw [pkTritsW_length]; norm_num)]
    rw [pkTritsW_length]
    have hpre : (pkTritsW.map (fun t => mods3 (1 + t))).reverse ++ [] ≠ [] := by
      rw [List.append_nil]
      intro hc
      have := congrArg List.length hc
      rw [List.length_reverse, List.length_map, pkTritsW_length] at this
      exact absurd this (by norm_num)
    rw [commit_eval_scW _ _ _ hpre]
    rw [if_neg]
    intro hc
    have hg : (((pkTritsW.map (fun t => mods3 (1 + t))).reverse ++ []).reverse
        ++ List.replicate (10240 - 9216) 1 ++ []).getD 0 7 = -1 := by
      rw [List.append_nil, List.append_nil, List.reverse_reverse]
      rw [getD_append_left _ _ 0
        (by rw [List.length_map, pkTritsW_length]; norm_num)]
      rw [getD_map_at _ _ 0 (by rw [pkTritsW_length]; norm_num)]
      rw [pkTritsW_getD0]
      decide
    rw [hc, sFW_getD0] at hg
    exact absurd hg (by norm_num)
  have hstep2 : Spongos.commit scW
      (Spongos.absorb scW ⟨[], List.replicate 10240 1, []⟩ [0])
      = ⟨[], List.replicate 10240 1, []⟩ := by
    rw [absorb_ones_scW _ _ _ _ (by norm_num)]
    rw [commit_eval_scW _ _ _ (by simp)]
    rw [if_neg]
    intro hc
    apply ones_ne_sFW
    have h2 : ((List.map (fun t => mods3 (1 + t)) [0]).reverse ++ []).reverse
        ++ List.replicate (10240 - [(0 : Int)].length) 1 ++ []
        = List.replicate 10240 1 := by
      rw [List.append_nil, List.append_nil, List.reverse_reverse]
      rw [show List.map (fun t => mods3 (1 + t)) [0] = [(1 : Int)] from by decide]
      rw [show (10240 - [(0 : Int)].length) = 10239 from rfl]
      rw [List.singleton_append, cons_rep_ten1]
    rw [← hc, h2]
  rw [hstep1, hstep2]
  have habs : Spongos.absorb scW ⟨[], List.replicate 10240 1, []⟩ [] =
      ⟨[], List.replicate 10240 1, []⟩ := rfl
  have hcom : Spongos.commit scW ⟨[], List.replicate 10240 1, []⟩ =
      ⟨[], List.replicate 10240 1, []⟩ := rfl
  rw [habs, hcom]
  rw [squeeze_block_scW 1 [] [] 10240 SK_SIZE (by norm_num [SK_SIZE])]
  rfl

/-- Absorbing the capsule into the fresh boundary sponge and committing lands
on the distinguished state, which the worked permutation maps to zeros. -/
theorem boundary_commit_eval :
    Spongos.commit scW (Spongos.absorb scW (Spongos.start scW) pkTritsW)
      = ⟨[], List.replicate 10240 0, []⟩ := by
  rw [absorb_start_scW pkTritsW Ternary_pkTritsW (by rw [pkTritsW_length]; norm_num)]
  have hpre : pkTritsW.reverse ≠ [] := by
    intro hc
    have := congrArg List.length hc
    rw [List.length_reverse, pkTritsW_length] at this
    exact absurd this (by norm_num)
  rw [commit_eval_scW _ _ _ hpre]
  rw [if_pos]
  rw [List.reverse_reverse, List.append_nil, pkTritsW_length]
  rfl

theorem encr_boundary :
    Spongos.encr scW ⟨[], List.replicate 10240 0, []⟩ [0]
      = (⟨[0], List.replicate 10239 0, []⟩, [0]) := by
  unfold Spongos.encr
  rw [Spongos.run_no_permute scW encrF [0] [] (List.replicate 10240 0) []
    (by rw [List.length_replicate]; norm_num)]
  rfl

theorem squeeze_boundary :
    Spongos.squeeze scW ⟨[0], List.replicate 10239 0, []⟩ 1023
      = (⟨List.replicate 1023 0 ++ [0], List.replicate 9216 0, []⟩,
         List.replicate 1023 0) := by
  rw [squeeze_block_scW 0 [0] [] 10239 1023 (by norm_num)]

theorem e_zeros : [(0 : Int)] ++ List.replicate 1023 0 = List.replicate 1024 0 := by
  rw [List.singleton_append, ← List.replicate_succ]

/-- Full evaluation of encapsulation in the worked instance: the capsule is
the serialized public polynomial again and the scratch vector is zero. -/
theorem encr_parts_eval :
    encr_pk_parts qW CW SW prngW pkTritsW hPolyW [] [0]
      = (pkTritsW, ⟨List.replicate 1023 0 ++ [0], List.replicate 9216 0, []⟩,
         List.replicate 1024 0) := by
  have hg : PRNG.gens CW.sc prngW [pkTritsW, [0], []] SK_SIZE
      = List.replicate 1024 1 := by
    rw [show CW.sc = scW from rfl]
    exact gens_encap_eval
  have ht : CW.intt (conv qW (CW.ntt (small_from_trits qW
      (PRNG.gens CW.sc prngW [pkTritsW, [0], []] SK_SIZE))) hPolyW) = hPolyW := by
    rw [hg, show (∀ p, CW.ntt p = p) from fun _ => rfl,
      show (∀ p, CW.intt p = p) from fun _ => rfl, sft_ones, conv_ones]
  have hs1 : Spongos.commit CW.sc (Spongos.absorb CW.sc SW (to_trits qW hPolyW))
      = ⟨[], List.replicate 10240 0, []⟩ := by
    show Spongos.commit scW (Spongos.absorb scW (Spongos.start scW) pkTritsW) = _
    exact boundary_commit_eval
  have hec : Spongos.encr CW.sc (⟨[], List.replicate 10240 0, []⟩ : Spongos) [0]
      = (⟨[0], List.replicate 10239 0, []⟩, [0]) := encr_boundary
  have hsq : Spongos.squeeze CW.sc
      ((⟨[0], List.replicate 10239 0, []⟩, [(0 : Int)]) : Spongos × List Int).1
      (SK_SIZE - CW.keySize)
      = (⟨List.replicate 1023 0 ++ [0], List.replicate 9216 0, []⟩,
         List.replicate 1023 0) := by
    show Spongos.squeeze scW ⟨[0], List.replicate 10239 0, []⟩ 1023 = _
    exact squeeze_boundary
  rw [show encr_pk_parts qW CW SW prngW pkTritsW hPolyW [] [0]
      = encr_r_parts qW CW SW hPolyW
          (PRNG.gens CW.sc prngW [pkTritsW, [0], []] SK_SIZE) [0] from rfl]
  rw [encr_r_parts_steps qW CW SW hPolyW _ [0] hPolyW
      (⟨[], List.replicate 10240 0, []⟩ : Spongos)
      ((⟨[0], List.replicate 10239 0, []⟩ : Spongos), [(0 : Int)])
      ((⟨List.replicate 1023 0 ++ [0], List.replicate 9216 0, []⟩ : Spongos),
        List.replicate 1023 0)
      ht hs1 hec hsq]
  show (to_trits qW (add_small qW hPolyW ([(0 : Int)] ++ List.replicate 1023 0)),
      _, _) = _
  rw [e_zeros, add_small_zero qW hPolyW 1024 (le_of_eq hPolyW_length)]
  rfl

theorem hPolyW_length_Ndeg : hPolyW.length = Ndeg := by
  rw [hPolyW_length]
  rfl

theorem parse_pkTritsW : from_trits qW Ndeg pkTritsW = some hPolyW :=
  from_trits_to_trits qW (by norm_num [qW]) (by norm_num [qW]) hPolyW Ndeg
    hPolyW_length_Ndeg

theorem round_decap_eval :
    round_to_trits qW (CW.intt (conv qW (CW.ntt hPolyW)
        ((4 : ZMod qW) :: List.replicate 1023 3)))
      = List.replicate 1024 0 := by
  rw [show (∀ p, CW.ntt p = p) from fun _ => rfl,
    show (∀ p, CW.intt p = p) from fun _ => rfl]
  have hc : conv qW hPolyW ((4 : ZMod qW) :: List.replicate 1023 3)
      = (3 : ZMod qW) :: List.replicate 1023 3 := by
    unfold conv hPolyW
    rw [List.zipWith_cons_cons, List.zipWith_replicate']
    rw [show ((3073 : ZMod qW) * 4 = (3 : ZMod qW)) from by decide]
    rw [show ((1 : ZMod qW) * 3 = (3 : ZMod qW)) from by decide]
  rw [hc]
  unfold round_to_trits
  rw [List.map_cons, List.map_replicate]
  rw [show balRep qW (3 : ZMod qW) = 3 from by decide]
  rw [show mods3 3 = 0 from by decide]
  rw [← List.replicate_succ]

/-- Decapsulation rounding of the worked instance recovers the zero scratch
vector. -/
theorem decap_kt_eval :
    decap_kt qW CW (List.replicate 1024 1) pkTritsW = List.replicate 1024 0 :=
  decap_kt_steps qW CW (List.replicate 1024 1) pkTritsW
    ((4 : ZMod qW) :: List.replicate 1023 3) hPolyW (List.replicate 1024 0)
    small_chain_ones parse_pkTritsW round_decap_eval

/-- The rounding contract holds at the worked instance. -/
theorem hround_eval :
    decap_kt qW CW skW.sk (encr_pk_parts qW CW SW prngW pkW.pk pkW.h [] [0]).1
      = (encr_pk_parts qW CW SW prngW pkW.pk pkW.h [] [0]).2.2 := by
  have h1 : (encr_pk_parts qW CW SW prngW pkW.pk pkW.h [] [0]).1 = pkTritsW := by
    rw [show pkW.pk = pkTritsW from rfl, show pkW.h = hPolyW from rfl,
      encr_parts_eval]
  have h2 : (encr_pk_parts qW CW SW prngW pkW.pk pkW.h [] [0]).2.2
      = List.replicate 1024 0 := by
    rw [show pkW.pk = pkTritsW from rfl, show pkW.h = hPolyW from rfl,
      encr_parts_eval]
  rw [h1, h2, show skW.sk = List.replicate 1024 1 from rfl]
  exact decap_kt_eval

/-- Witness for C1: the full worked instance, with every hypothesis of the
correctness theorem discharged concretely. -/
theorem kem_encap_decap_check :
    decr_sk qW CW SW skW.sk (encr_pk qW CW SW prngW pkW.pk pkW.h [] [0]).1 [7]
      = (true, (encr_pk qW CW SW prngW pkW.pk pkW.h [] [0]).2, [0]) :=
  kem_encap_decap qW CW (by norm_num [qW]) (by norm_num [qW])
    (by decide) (fun _ => rfl) (fun _ => rfl)
    prngW [] [] [0] [7] rfl (by decide) skW pkW gen_eval SW hround_eval

/-- C3: decapsulation returns the same uniform failure value (false) in every
failure case — whether the capsule's polynomial parse finds an out-of-range
coefficient or the final tag comparison fails; in particular, for every
capsule whose from_trits parse fails, decr_r returns false (with sponge and
key buffer untouched). -/
theorem decr_r_uniform_failure (q : Nat) (C : KemCfg q) (s : Spongos)
    (f : List (ZMod q)) (y1 y2 k0 : List Int) (t : List (ZMod q))
    (h1 : from_trits q Ndeg y1 = none)
    (h2 : from_trits q Ndeg y2 = some t)
    (h3 : (decr_cmp q C s f t).1 ≠ (decr_cmp q C s f t).2) :
    decr_r q C s f y1 k0 = (false, s, k0)
      ∧ (decr_r q C s f y2 k0).1 = false := by
  constructor
  · unfold decr_r
    simp only [h1]
  · have heq : (decr_r q C s f y2 k0).1
        = decide ((decr_cmp q C s f t).1 = (decr_cmp q C s f t).2) := by
      unfold decr_r decr_cmp
      simp only [h2]
    rw [heq, decide_eq_false h3]

/-- The private polynomial of the worked failure instance. -/
def fCW : List (ZMod qW) := (1 : ZMod qW) :: List.replicate 1023 0

/-- Evaluation interface for `decr_cmp`: one equation per stage. -/
theorem decr_cmp_steps (q : Nat) (C : KemCfg q) (s : Spongos)
    (f t : List (ZMod q)) (kt rh : List Int) (s1 : Spongos)
    (dk sq : Spongos × List Int)
    (hkt : round_to_trits q (C.intt (conv q (C.ntt t) f)) = kt)
    (hrh : to_trits q (sub_small q t kt) = rh)
    (hs1 : Spongos.commit C.sc (Spongos.absorb C.sc s rh) = s1)
    (hdk : Spongos.decr C.sc s1 (kt.take C.keySize) = dk)
    (hsq : Spongos.squeeze C.sc dk.1 (SK_SIZE - C.keySize) = sq) :
    decr_cmp q C s f t = (sq.2, kt.drop C.keySize) := by
  simp only [decr_cmp]
  rw [hkt, hrh, hs1, hdk, hsq]

theorem from_trits_succ (q : Nat) (n : Nat) (ts : List Int) :
    from_trits q (n + 1) ts =
      if (decodeBal (ts.take tpc)).natAbs ≤ q / 2 then
        (from_trits q n (ts.drop tpc)).map
          (fun cs => ((decodeBal (ts.take tpc) : ZMod q) :: cs))
      else none := rfl

theorem parse_fail_ones : from_trits qW Ndeg (List.replicate 9216 1) = none := by
  show from_trits qW (1023 + 1) (List.replicate 9216 1) = none
  rw [from_trits_succ]
  rw [List.take_replicate]
  rw [show min tpc 9216 = 9 from rfl]
  rw [show decodeBal (List.replicate 9 (1 : Int)) = 9841 from by decide]
  rw [if_neg (by decide)]

theorem c3_round_eval :
    round_to_trits qW (CW.intt (conv qW (CW.ntt hPolyW) fCW))
      = 1 :: List.replicate 1023 0 := by
  rw [show (∀ p, CW.ntt p = p) from fun _ => rfl,
    show (∀ p, CW.intt p = p) from fun _ => rfl]
  have hc : conv qW hPolyW fCW = (3073 : ZMod qW) :: List.replicate 1023 0 := by
    unfold conv hPolyW fCW
    rw [List.zipWith_cons_cons, List.zipWith_replicate']
    rw [show ((3073 : ZMod qW) * 1 = (3073 : ZMod qW)) from by decide]
    rw [show ((1 : ZMod qW) * 0 = (0 : ZMod qW)) from by decide]
  rw [hc]
  unfold round_to_trits
  rw [List.map_cons, List.map_replicate, balRep_3073W]
  rw [show mods3 3073 = 1 from by decide]
  rw [show balRep qW (0 : ZMod qW) = 0 from by decide]
  rw [show mods3 0 = 0 from by decide]

theorem c3_sub_eval :
    to_trits qW (sub_small qW hPolyW (1 :: List.replicate 1023 0))
      = to_trits qW ((3072 : ZMod qW) :: List.replicate 1023 1) := by
  have hs : sub_small qW hPolyW (1 :: List.replicate 1023 0)
      = (3072 : ZMod qW) :: List.replicate 1023 1 := by
    unfold sub_small hPolyW
    rw [List.zipWith_cons_cons, List.zipWith_replicate']
    rw [show ((3073 : ZMod qW) - ((1 : Int) : ZMod qW) = (3072 : ZMod qW))
      from by decide]
    rw [show ((1 : ZMod qW) - ((0 : Int) : ZMod qW) = (1 : ZMod qW))
      from by decide]
  rw [hs]

theorem c3_rh_getD0 :
    (to_trits qW ((3072 : ZMod qW) :: List.replicate 1023 1)).getD 0 7 = 0 := by
  rw [to_trits_cons, getD_append_left _ _ 0
    (by rw [encodeBal_length]; norm_num [tpc])]
  rw [show balRep qW (3072 : ZMod qW) = 3072 from by decide]
  decide

theorem c3_s1_eval :
    Spongos.commit CW.sc (Spongos.absorb CW.sc SW
        (to_trits qW ((3072 : ZMod qW) :: List.replicate 1023 1)))
      = ⟨[], List.replicate 10240 1, []⟩ := by
  show Spongos.commit scW (Spongos.absorb scW (Spongos.start scW) _) = _
  have hlen : (to_trits qW ((3072 : ZMod qW) :: List.replicate 1023 1)).length
      = 9216 := by
    rw [to_trits_length]
    simp only [List.length_cons, List.length_replicate]
    norm_num [tpc]
  rw [absorb_start_scW _ (Ternary_to_trits qW _) (by rw [hlen]; norm_num)]
  have hpre : (to_trits qW ((3072 : ZMod qW) :: List.replicate 1023 1)).reverse
      ≠ [] := by
    intro hc
    have := congrArg List.length hc
    rw [List.length_reverse, hlen] at this
    exact absurd this (by norm_num)
  rw [commit_eval_scW _ _ _ hpre]
  rw [if_neg]
  intro hc
  rw [List.reverse_reverse, List.append_nil, hlen] at hc
  have hg := congrArg (fun l => List.getD l 0 7) hc
  simp only at hg
  rw [getD_append_left _ _ 0 (by rw [hlen]; norm_num), c3_rh_getD0, sFW_getD0]
    at hg
  exact absurd hg (by norm_num)

theorem c3_dk_eval :
    Spongos.decr CW.sc ⟨[], List.replicate 10240 1, []⟩
        ((1 :: List.replicate 1023 0).take CW.keySize)
      = (⟨[1], List.replicate 10239 1, []⟩, [0]) := by
  show Spongos.decr scW ⟨[], List.replicate 10240 1, []⟩ [1] = _
  unfold Spongos.decr
  rw [Spongos.run_no_permute scW decrF [1] [] (List.replicate 10240 1) []
    (by rw [List.length_replicate]; norm_num)]
  rfl

theorem c3_sq_eval :
    Spongos.squeeze CW.sc
        ((⟨[1], List.replicate 10239 1, []⟩, [(0 : Int)]) : Spongos × List Int).1
        (SK_SIZE - CW.keySize)
      = (⟨List.replicate 1023 1 ++ [1], List.replicate 9216 1, []⟩,
         List.replicate 1023 1) := by
  show Spongos.squeeze scW ⟨[1], List.replicate 10239 1, []⟩ 1023 = _
  rw [squeeze_block_scW 1 [1] [] 10239 1023 (by norm_num)]

theorem c3_cmp_eval :
    decr_cmp qW CW SW fCW hPolyW
      = (List.replicate 1023 1, List.replicate 1023 0) := by
  rw [decr_cmp_steps qW CW SW fCW hPolyW (1 :: List.replicate 1023 0)
    (to_trits qW ((3072 : ZMod qW) :: List.replicate 1023 1))
    (⟨[], List.replicate 10240 1, []⟩ : Spongos)
    ((⟨[1], List.replicate 10239 1, []⟩ : Spongos), [(0 : Int)])
    ((⟨List.replicate 1023 1 ++ [1], List.replicate 9216 1, []⟩ : Spongos),
      List.replicate 1023 1)
    c3_round_eval c3_sub_eval c3_s1_eval c3_dk_eval c3_sq_eval]
  rfl

/-- Witness for C3: a parse-failing capsule and a tag-failing capsule. -/
theorem decr_r_uniform_failure_check :
    decr_r qW CW SW fCW (List.replicate 9216 1) [0] = (false, SW, [0])
      ∧ (decr_r qW CW SW fCW pkTritsW [0]).1 = false :=
  decr_r_uniform_failure qW CW SW fCW (List.replicate 9216 1) pkTritsW [0]
    hPolyW parse_fail_ones parse_pkTritsW
    (by
      rw [c3_cmp_eval]
      exact ne_of_getD_ne _ _ 0
        (by rw [getD_replicate_at _ _ 0 (by norm_num),
              getD_replicate_at _ _ 0 (by norm_num)]; norm_num))
